import Mathlib

/-!
Verification development for the MailClient repository
(`src-tauri/src`): a shallow embedding in Lean 4 of the SQLite email
cache (`cache/mod.rs`), the IMAP client helpers (`imap/client.rs`)
— header pagination, the Modified UTF-7 mailbox-name codec, the
RFC 2047 header decoder, UID sequence-set compaction — together with
theorems checking the natural-language specification against the code.

Strings that the claims inspect character by character are modelled as
lists of Unicode code points (`List Nat`); strings the cache merely
stores and compares are modelled as Lean `String`.
-/

set_option maxRecDepth 100000

namespace MailClient

/-! ## Cache data model (`cache/mod.rs`)

The SQLite tables created in `EmailCache::new` are modelled as lists of
row records; `INSERT OR REPLACE` on a primary key is modelled by
filtering out the old row for that key and consing the new row.
The `emails` table has primary key `(folder, uid)`; `sync_state` has
primary key `folder`; `email_categories` has primary key
`(folder, uid)`.  The `attachments` table declares
`FOREIGN KEY (email_uid, folder) REFERENCES emails(uid, folder)
ON DELETE CASCADE`; `email_categories` declares no foreign key.
`REAL` columns (category confidence) are carried as `Rat`: the code
only stores and returns them, never computes with them. -/

structure EmailRow where
  uid : Nat
  folder : String
  subject : String
  from_addr : String
  to_addr : String
  cc : String
  date : String
  date_timestamp : Int
  is_read : Bool
  has_attachments : Bool
  body_text : Option String
  body_html : Option String
  cached_at : Int
deriving DecidableEq, Repr

structure AttachmentRow where
  email_uid : Nat
  folder : String
  filename : String
  mime_type : String
  size : Nat
  data : Option (List Nat)
deriving DecidableEq, Repr

structure SyncState where
  folder : String
  last_sync : Int
  highest_uid : Nat
deriving DecidableEq, Repr

structure EmailCategoryRow where
  folder : String
  uid : Nat
  category_id : String
  confidence : Rat
  is_user_override : Bool
  categorized_at : Int
deriving DecidableEq, Repr

/-- The mutable state of one account's cache database. -/
structure CacheDb where
  emails : List EmailRow
  attachments : List AttachmentRow
  sync_state : List SyncState
  email_categories : List EmailCategoryRow
deriving DecidableEq, Repr

def CacheDb.empty : CacheDb :=
  { emails := [], attachments := [], sync_state := [], email_categories := [] }

/-! ## `Attachment` and `Email` records (`imap/client.rs` structs) -/

structure Attachment where
  filename : String
  mime_type : String
  size : Nat
  part_id : String
  encoding : String
deriving DecidableEq, Repr

structure Email where
  uid : Nat
  subject : String
  from_ : String
  to_ : String
  cc : String
  date : String
  body_text : String
  body_html : String
  attachments : List Attachment
  is_read : Bool
  is_flagged : Bool
  is_answered : Bool
  is_draft : Bool
  flags : List String
deriving DecidableEq, Repr

/-! ## Cache operations

Each mirrors one method of `EmailCache`.  The current wall-clock time
(`SystemTime::now()` in the code) is passed in explicitly as `now`. -/

/-- `EmailCache::get_sync_state`: `SELECT folder, last_sync, highest_uid
FROM sync_state WHERE folder = ?1`. -/
def get_sync_state (db : CacheDb) (folder : String) : Option SyncState :=
  db.sync_state.find? (fun r => r.folder == folder)

/-- `EmailCache::set_sync_state`: `INSERT OR REPLACE INTO sync_state
(folder, last_sync, highest_uid) VALUES (?1, ?2, ?3)` with `?2 = now`. -/
def set_sync_state (db : CacheDb) (now : Int) (folder : String) (highest_uid : Nat) : CacheDb :=
  { db with sync_state :=
      { folder := folder, last_sync := now, highest_uid := highest_uid } ::
        db.sync_state.filter (fun r => !(r.folder == folder)) }

/-- `EmailCache::get_email_category`: `SELECT category_id FROM
email_categories WHERE folder = ?1 AND uid = ?2`. -/
def get_email_category (db : CacheDb) (folder : String) (uid : Nat) : Option String :=
  (db.email_categories.find? (fun r => r.folder == folder && r.uid == uid)).map
    (fun r => r.category_id)

/-- `EmailCache::set_email_category`: `INSERT OR REPLACE INTO
email_categories (folder, uid, category_id, confidence,
is_user_override, categorized_at) VALUES (?1, ?2, ?3, ?4, ?5, ?6)`.
The statement replaces unconditionally on the primary key
`(folder, uid)`; it does not consult the stored `is_user_override`. -/
def set_email_category (db : CacheDb) (now : Int) (folder : String) (uid : Nat)
    (category_id : String) (confidence : Rat) (is_user_override : Bool) : CacheDb :=
  { db with email_categories :=
      { folder := folder, uid := uid, category_id := category_id,
        confidence := confidence, is_user_override := is_user_override,
        categorized_at := now } ::
        db.email_categories.filter (fun r => !(r.folder == folder && r.uid == uid)) }

/-- `EmailCache::delete_email`: `DELETE FROM emails WHERE folder = ?1
AND uid = ?2`.  Removal of the matching `attachments` rows models the
schema's `ON DELETE CASCADE` on the `attachments` foreign key; the
`email_categories` table declares no foreign key and the method issues
no delete against it, so it is untouched. -/
def delete_email (db : CacheDb) (folder : String) (uid : Nat) : CacheDb :=
  { db with
    emails := db.emails.filter (fun r => !(r.folder == folder && r.uid == uid)),
    attachments := db.attachments.filter (fun r => !(r.folder == folder && r.email_uid == uid)) }

/-- `EmailCache::cleanup_old_emails`: returns `0` and leaves the
database unchanged when `days == 0`; otherwise executes
`DELETE FROM emails WHERE cached_at < ?1` with
`?1 = now - days*24*60*60` and returns the number of deleted rows. -/
def cleanup_old_emails (db : CacheDb) (now : Int) (days : Nat) : CacheDb × Nat :=
  if days = 0 then (db, 0)
  else
    let cutoff : Int := now - (days : Int) * 24 * 60 * 60
    (({ db with emails := db.emails.filter (fun r => !decide (r.cached_at < cutoff)) }),
      (db.emails.filter (fun r => decide (r.cached_at < cutoff))).length)

/-- `EmailCache::get_attachments_metadata`: `SELECT filename, mime_type,
size FROM attachments WHERE folder = ?1 AND email_uid = ?2`, with
`part_id` set to the empty string and `encoding` to base64. -/
def get_attachments_metadata (db : CacheDb) (folder : String) (uid : Nat) : List Attachment :=
  (db.attachments.filter (fun r => r.folder == folder && r.email_uid == uid)).map
    (fun r =>
      { filename := r.filename, mime_type := r.mime_type, size := r.size,
        part_id := ("" : String), encoding := ("base64" : String) })

/-- `EmailCache::get_email`: selects the `(folder, uid)` row and builds
an `Email` with `is_read: true`, `is_flagged: false`,
`is_answered: false`, `is_draft: false`, `flags: Vec::new()`, loading
attachment metadata separately. -/
def get_email (db : CacheDb) (folder : String) (uid : Nat) : Option Email :=
  (db.emails.find? (fun r => r.folder == folder && r.uid == uid)).map
    (fun r =>
      { uid := r.uid, subject := r.subject, from_ := r.from_addr, to_ := r.to_addr,
        cc := r.cc, date := r.date,
        body_text := r.body_text.getD ("" : String),
        body_html := r.body_html.getD ("" : String),
        attachments := get_attachments_metadata db folder uid,
        is_read := true, is_flagged := false, is_answered := false,
        is_draft := false, flags := [] })

/-- `EmailCache::store_attachment_metadata`: plain `INSERT INTO
attachments (email_uid, folder, filename, mime_type, size)`. -/
def store_attachment_metadata (db : CacheDb) (folder : String) (uid : Nat)
    (att : Attachment) : CacheDb :=
  { db with attachments := db.attachments ++
      [{ email_uid := uid, folder := folder, filename := att.filename,
         mime_type := att.mime_type, size := att.size, data := none }] }

/-- `EmailCache::store_email`: `INSERT OR REPLACE INTO emails ...` with
`is_read` hard-coded to `0` (the comment in the code reads
`is_read will be updated separately`), `has_attachments` from
`!email.attachments.is_empty()`, `cached_at = now`, and
`date_timestamp` from `parse_date_to_timestamp` — the chrono-based date
parsing is abstracted as the explicit argument `timestamp`.  Attachment
metadata rows are then inserted for each attachment. -/
def store_email (db : CacheDb) (now timestamp : Int) (folder : String) (email : Email) : CacheDb :=
  let row : EmailRow :=
    { uid := email.uid, folder := folder, subject := email.subject,
      from_addr := email.from_, to_addr := email.to_, cc := email.cc,
      date := email.date, date_timestamp := timestamp,
      is_read := false,
      has_attachments := !email.attachments.isEmpty,
      body_text := some email.body_text, body_html := some email.body_html,
      cached_at := now }
  let db' : CacheDb :=
    { db with emails := row ::
        db.emails.filter (fun r => !(r.folder == folder && r.uid == email.uid)) }
  email.attachments.foldl (fun acc att => store_attachment_metadata acc folder email.uid att) db'

/-! ## IMAP header pagination (`ImapClient::fetch_headers`)

After `SELECT` the mailbox reports `total = mailbox.exists` messages,
addressed by sequence numbers `1..total` (oldest first).  The code
computes

```text
let end   = total.saturating_sub(start);
let begin = end.saturating_sub(count).max(1);
if end < begin { return empty }
fetch "begin:end"; ...; headers.reverse();
```

`u32::saturating_sub` is `Nat` subtraction.  The mailbox is modelled as
the list of its messages in sequence-number order (element at index
`i` has sequence number `i + 1`); the per-message envelope parsing is
independent of the pagination and is left polymorphic. -/

/-- The sequence-number range `(begin, end)` fetched by
`fetch_headers`, or `none` when the fetch is skipped (empty mailbox or
`end < begin`). -/
def fetch_headers_range (total start count : Nat) : Option (Nat × Nat) :=
  if total = 0 then none
  else
    let e := total - start
    let b := max (e - count) 1
    if e < b then none else some (b, e)

/-- `ImapClient::fetch_headers` restricted to its pagination behavior:
the messages with sequence numbers in the fetched range, reversed so
the newest comes first. -/
def fetch_headers {α : Type} (mailbox : List α) (start count : Nat) : List α :=
  match fetch_headers_range mailbox.length start count with
  | none => []
  | some (b, e) => ((mailbox.drop (b - 1)).take (e - b + 1)).reverse

/-- A sample cached email row, used to instantiate theorems with
hypotheses at concrete inputs. -/
def sampleRow : EmailRow :=
  { uid := 1, folder := ("INBOX"), subject := (""), from_addr := (""),
    to_addr := (""), cc := (""), date := (""), date_timestamp := 999999,
    is_read := false, has_attachments := false, body_text := none,
    body_html := none, cached_at := 0 }

/-- A one-row sample database built from `sampleRow`. -/
def sampleDb : CacheDb :=
  { emails := [sampleRow], attachments := [], sync_state := [], email_categories := [] }

/-- The `Email` value `get_email` builds from `sampleRow` (body fields
default to empty, flags are fixed). -/
def sampleEmailOut : Email :=
  { uid := 1, subject := (""), from_ := (""), to_ := (""), cc := (""), date := (""),
    body_text := (""), body_html := (""), attachments := [],
    is_read := true, is_flagged := false, is_answered := false, is_draft := false,
    flags := [] }

/-- An `Email` marked read, used to show `store_email` discards the
`is_read` value of the email being stored. -/
def sampleEmailIn : Email :=
  { uid := 9, subject := ("s"), from_ := ("a@b"), to_ := ("c@d"), cc := (""),
    date := (""), body_text := ("t"), body_html := ("h"), attachments := [],
    is_read := true, is_flagged := true, is_answered := false, is_draft := false,
    flags := [] }

/-! ## Strings as code-point lists

The IMAP-side helpers inspect strings character by character; they are
modelled over `List Nat` of Unicode code points.  `codes` converts a
Lean string literal. -/

def codes (s : String) : List Nat := s.data.map Char.toNat

/-! ## Base64 (model of the `base64` crate's STANDARD engine)

`base64::engine::general_purpose::STANDARD`: the RFC 4648 alphabet
with `+` and `/`, canonical `=` padding required on decode, and
non-zero trailing bits rejected. -/

/-- Sextet value to ASCII code of the standard-alphabet character. -/
def sextetToChar (i : Nat) : Nat :=
  if i < 26 then 65 + i
  else if i < 52 then 71 + i
  else if i < 62 then i - 4
  else if i = 62 then 43
  else 47

/-- ASCII code back to sextet value; `none` for characters outside the
standard alphabet. -/
def charToSextet (c : Nat) : Option Nat :=
  if 65 ≤ c ∧ c ≤ 90 then some (c - 65)
  else if 97 ≤ c ∧ c ≤ 122 then some (c - 71)
  else if 48 ≤ c ∧ c ≤ 57 then some (c + 4)
  else if c = 43 then some 62
  else if c = 47 then some 63
  else none

/-- Standard base64 encoding of a byte list, producing the ASCII codes
of the encoded characters, `=` padding included. -/
def base64Encode : List Nat → List Nat
  | b1 :: b2 :: b3 :: rest =>
      sextetToChar (b1 / 4) :: sextetToChar ((b1 % 4) * 16 + b2 / 16) ::
        sextetToChar ((b2 % 16) * 4 + b3 / 64) :: sextetToChar (b3 % 64) ::
          base64Encode rest
  | [b1, b2] =>
      [sextetToChar (b1 / 4), sextetToChar ((b1 % 4) * 16 + b2 / 16),
        sextetToChar ((b2 % 16) * 4), 61]
  | [b1] => [sextetToChar (b1 / 4), sextetToChar ((b1 % 4) * 16), 61, 61]
  | [] => []

/-- Standard base64 decoding: input length must be a multiple of four,
`=` only in the final group, trailing bits must be zero. -/
def base64Decode : List Nat → Option (List Nat)
  | [] => some []
  | c1 :: c2 :: c3 :: c4 :: rest =>
      match charToSextet c1, charToSextet c2 with
      | some v1, some v2 =>
          if c3 = 61 then
            -- `xx==`: final group encoding one byte
            if c4 = 61 ∧ rest = [] ∧ v2 % 16 = 0 then
              some [v1 * 4 + v2 / 16]
            else none
          else
            match charToSextet c3 with
            | some v3 =>
                if c4 = 61 then
                  -- `xxx=`: final group encoding two bytes
                  if rest = [] ∧ v3 % 4 = 0 then
                    some [v1 * 4 + v2 / 16, (v2 % 16) * 16 + v3 / 4]
                  else none
                else
                  match charToSextet c4 with
                  | some v4 =>
                      (base64Decode rest).map
                        (fun bs => (v1 * 4 + v2 / 16) :: ((v2 % 16) * 16 + v3 / 4) ::
                          ((v3 % 4) * 64 + v4) :: bs)
                  | none => none
            | none => none
      | _, _ => none
  | _ => none

/-! ## UTF-8 (models of `String::from_utf8_lossy` and friends)

Decodes well-formed UTF-8 sequences and substitutes U+FFFD for
maximal invalid subparts, as the Rust standard library does. -/

/-- Is `b2` a valid second byte after leading byte `b`? -/
def utf8ContOk (b b2 : Nat) : Bool :=
  if b = 0xE0 then 0xA0 ≤ b2 && b2 ≤ 0xBF
  else if b = 0xED then 0x80 ≤ b2 && b2 ≤ 0x9F
  else if b = 0xF0 then 0x90 ≤ b2 && b2 ≤ 0xBF
  else if b = 0xF4 then 0x80 ≤ b2 && b2 ≤ 0x8F
  else 0x80 ≤ b2 && b2 ≤ 0xBF

/-- Lossy UTF-8 decoding to code points; `fuel` only bounds the
recursion depth (each step consumes at least one byte, so
`fuel = s.length` always suffices). -/
def utf8LossyGo : Nat → List Nat → List Nat
  | 0, _ => []
  | _ + 1, [] => []
  | fuel + 1, b :: rest =>
      if b < 0x80 then b :: utf8LossyGo fuel rest
      else if 0xC2 ≤ b ∧ b ≤ 0xDF then
        match rest with
        | b2 :: rest2 =>
            if 0x80 ≤ b2 && b2 ≤ 0xBF then
              ((b - 0xC0) * 64 + (b2 - 0x80)) :: utf8LossyGo fuel rest2
            else 0xFFFD :: utf8LossyGo fuel rest
        | [] => [0xFFFD]
      else if 0xE0 ≤ b ∧ b ≤ 0xEF then
        match rest with
        | b2 :: rest2 =>
            if utf8ContOk b b2 then
              match rest2 with
              | b3 :: rest3 =>
                  if 0x80 ≤ b3 && b3 ≤ 0xBF then
                    ((b - 0xE0) * 4096 + (b2 - 0x80) * 64 + (b3 - 0x80))
                      :: utf8LossyGo fuel rest3
                  else 0xFFFD :: utf8LossyGo fuel rest2
              | [] => [0xFFFD]
            else 0xFFFD :: utf8LossyGo fuel rest
        | [] => [0xFFFD]
      else if 0xF0 ≤ b ∧ b ≤ 0xF4 then
        match rest with
        | b2 :: rest2 =>
            if utf8ContOk b b2 then
              match rest2 with
              | b3 :: rest3 =>
                  if 0x80 ≤ b3 && b3 ≤ 0xBF then
                    match rest3 with
                    | b4 :: rest4 =>
                        if 0x80 ≤ b4 && b4 ≤ 0xBF then
                          ((b - 0xF0) * 262144 + (b2 - 0x80) * 4096 + (b3 - 0x80) * 64
                              + (b4 - 0x80)) :: utf8LossyGo fuel rest4
                        else 0xFFFD :: utf8LossyGo fuel rest3
                    | [] => [0xFFFD]
                  else 0xFFFD :: utf8LossyGo fuel rest2
              | [] => [0xFFFD]
            else 0xFFFD :: utf8LossyGo fuel rest
        | [] => [0xFFFD]
      else 0xFFFD :: utf8LossyGo fuel rest

/-- `String::from_utf8_lossy`, to code points. -/
def utf8Lossy (s : List Nat) : List Nat := utf8LossyGo s.length s

/-! ## RFC 2047 header decoding (`decode_rfc2047`,
`decode_quoted_printable` in `imap/client.rs`) -/

/-- Hexadecimal digit value, as accepted by `u8::from_str_radix(_, 16)`. -/
def hexVal (c : Nat) : Option Nat :=
  if 48 ≤ c ∧ c ≤ 57 then some (c - 48)
  else if 65 ≤ c ∧ c ≤ 70 then some (c - 55)
  else if 97 ≤ c ∧ c ≤ 102 then some (c - 87)
  else none

/-- The loop body of `decode_quoted_printable`: on `=` take the next
two characters and push the byte when both are hex digits; other
characters are pushed truncated to a byte (`c as u8`). -/
def qpGo : List Nat → List Nat
  | [] => []
  | c :: rest =>
      if c = 61 then
        match rest with
        | c1 :: c2 :: rest2 =>
            match hexVal c1, hexVal c2 with
            | some h1, some h2 => (16 * h1 + h2) :: qpGo rest2
            | _, _ => qpGo rest2
        | [_] => []
        | [] => []
      else (c % 256) :: qpGo rest

/-- `decode_quoted_printable`: never fails. -/
def decode_quoted_printable (s : List Nat) : Option (List Nat) := some (qpGo s)

/-- ASCII uppercase of a code point (`char::to_ascii_uppercase`). -/
def toAsciiUpper (c : Nat) : Nat := if 97 ≤ c ∧ c ≤ 122 then c - 32 else c

/-- ASCII lowercase of a code point. -/
def toAsciiLower (c : Nat) : Nat := if 65 ≤ c ∧ c ≤ 90 then c + 32 else c

/-- `str::eq_ignore_ascii_case`. -/
def eqIgnoreAsciiCase (a b : List Nat) : Bool :=
  a.map toAsciiLower == b.map toAsciiLower

/-- Scan up to the first `?` (used for the charset of an encoded word):
returns the segment before it and the remainder after it, or `none`
when the input ends first. -/
def splitAtQ : List Nat → Option (List Nat × List Nat)
  | [] => none
  | c :: rest =>
      if c = 63 then some ([], rest)
      else (splitAtQ rest).map (fun p => (c :: p.1, p.2))

/-- Scan up to the first adjacent `?=` (the end of the encoded text):
returns the text before it and the remainder after it; `none` when the
pair is not found before the final character. -/
def scanText : List Nat → Option (List Nat × List Nat)
  | [] => none
  | [_] => none
  | c :: c2 :: rest =>
      if c = 63 ∧ c2 = 61 then some ([], rest)
      else (scanText (c2 :: rest)).map (fun p => (c :: p.1, p.2))

/-- The whitespace loop after a decoded word: emit space/tab characters
until one is directly followed by `=` (that single character is
elided) or the whitespace ends; returns the emitted characters and the
remainder to continue from. -/
def wsSkip : List Nat → List Nat × List Nat
  | [] => ([], [])
  | c :: rest =>
      if c = 32 ∨ c = 9 then
        if rest.head? = some 61 then ([], rest)
        else
          let p := wsSkip rest
          (c :: p.1, p.2)
      else ([], c :: rest)

/-- Decode one encoded word given its raw (not yet uppercased)
encoding character, its charset and its text, mirroring the body of
`decode_rfc2047`: base64 for `B`, quoted-printable with `_` mapped to
space for `Q`, then charset interpretation (`utf-8` and unknown
charsets via lossy UTF-8, `iso-8859-1`/`latin1` byte-wise). `none`
when the transfer decoding fails. -/
def decodeEncodedWord (charset : List Nat) (encChar : Nat) (text : List Nat) :
    Option (List Nat) :=
  let encoding := toAsciiUpper encChar
  let decodedBytes : Option (List Nat) :=
    if encoding = 66 then base64Decode text
    else if encoding = 81 then
      decode_quoted_printable (text.map (fun c => if c = 95 then 32 else c))
    else none
  decodedBytes.map (fun bytes =>
    if eqIgnoreAsciiCase charset (codes ("utf-8")) then utf8Lossy bytes
    else if eqIgnoreAsciiCase charset (codes ("iso-8859-1"))
        || eqIgnoreAsciiCase charset (codes ("latin1")) then bytes
    else utf8Lossy bytes)

/-- The main loop of `decode_rfc2047`, as a recursion on the input
suffix.  `fuel` only bounds the recursion depth (each step consumes at
least one character, so `fuel = s.length` always suffices); it is a
modelling artifact, not part of the behavior.

One divergence of the source worth noting: in three bail-out branches
the code pushes `&input[start..]`, slicing the original `String` by a
character index used as a byte offset; for inputs whose prefix is pure
ASCII (all inputs relevant here) that equals the character suffix
modelled below. -/
def rfc2047Go : Nat → List Nat → List Nat
  | 0, _ => []
  | _ + 1, [] => []
  | fuel + 1, c1 :: rest =>
      if c1 = 61 ∧ rest.head? = some 63 then
        let full := c1 :: rest
        match splitAtQ rest.tail with
        | none => full
        | some (charset, afterCharset) =>
            match afterCharset with
            | [] => full
            | encChar :: afterEnc =>
                if afterEnc.head? = some 63 then
                    match scanText afterEnc.tail with
                    | none => full
                    | some (text, afterWord) =>
                        match decodeEncodedWord charset encChar text with
                        | some out =>
                            let p := wsSkip afterWord
                            out ++ p.1 ++ rfc2047Go fuel p.2
                        | none =>
                            let original :=
                              61 :: 63 :: charset ++ 63 :: encChar :: 63 :: text ++ [63, 61]
                            let p := wsSkip afterWord
                            original ++ p.1 ++ rfc2047Go fuel p.2
                else full ++ rfc2047Go fuel afterEnc
      else c1 :: rfc2047Go fuel rest

/-- `decode_rfc2047`. -/
def decode_rfc2047 (s : List Nat) : List Nat := rfc2047Go s.length s

/-- A `Q`-encoded word with charset `UTF-8` and the given encoded
text: the code points of `=?UTF-8?Q?` ++ text ++ `?=`. -/
def qWord (t : List Nat) : List Nat :=
  61 :: 63 :: codes ("UTF-8") ++ 63 :: 81 :: 63 :: t ++ [63, 61]

/-- Encoded text that passes through quoted-printable and UTF-8
decoding unchanged: ASCII, no `?`, no `=`, no `_`. -/
def qSafe (t : List Nat) : Prop :=
  ∀ x ∈ t, x < 128 ∧ x ≠ 63 ∧ x ≠ 61 ∧ x ≠ 95

instance (t : List Nat) : Decidable (qSafe t) := by
  unfold qSafe
  infer_instance

/-! ## Modified UTF-7 mailbox-name codec (`encode_imap_utf7`,
`decode_imap_utf7` in `imap/client.rs`, RFC 3501 §5.1.3) -/

/-- `char::encode_utf16` for one scalar value: a single code unit in
the BMP, a surrogate pair above it. -/
def utf16Encode (c : Nat) : List Nat :=
  if c < 65536 then [c]
  else [55296 + (c - 65536) / 1024, 56320 + (c - 65536) % 1024]

/-- `str::encode_utf16`: the UTF-16 code units of a string. -/
def utf16Units (s : List Nat) : List Nat := s.flatMap utf16Encode

/-- The code units flat-mapped through `u16::to_be_bytes`. -/
def utf16beBytes (s : List Nat) : List Nat :=
  (utf16Units s).flatMap (fun u => [u / 256, u % 256])

/-- `str::trim_end_matches('=')`. -/
def trimTrailingEq (l : List Nat) : List Nat :=
  (l.reverse.dropWhile (fun c => c == 61)).reverse

/-- `encode_utf16_to_imap_base64`: UTF-16BE bytes, standard base64,
`=` padding stripped, `/` replaced by `,`, wrapped in `&` ... `-`. -/
def encode_utf16_to_imap_base64 (input : List Nat) : List Nat :=
  38 :: (trimTrailingEq (base64Encode (utf16beBytes input))).map
      (fun c => if c = 47 then 44 else c) ++ [45]

/-- The loop of `encode_imap_utf7`, carrying the pending run of
characters that need encoding (`non_ascii` in the code): `&` flushes
and becomes `&-`, printable ASCII (0x20–0x7e) flushes and passes
through, everything else is buffered; the buffer is flushed as one
base64 block. -/
def encodeUtf7Go (buf : List Nat) : List Nat → List Nat
  | [] => if buf = [] then [] else encode_utf16_to_imap_base64 buf
  | c :: rest =>
      if c = 38 then
        (if buf = [] then [] else encode_utf16_to_imap_base64 buf)
          ++ 38 :: 45 :: encodeUtf7Go [] rest
      else if 32 ≤ c ∧ c ≤ 126 then
        (if buf = [] then [] else encode_utf16_to_imap_base64 buf)
          ++ c :: encodeUtf7Go [] rest
      else encodeUtf7Go (buf ++ [c]) rest

/-- `encode_imap_utf7`. -/
def encode_imap_utf7 (s : List Nat) : List Nat := encodeUtf7Go [] s

/-- The scan of `decode_imap_utf7` after a `&`: characters up to the
first `-` (consumed), or the whole remainder when no `-` follows. -/
def splitDash : List Nat → List Nat × List Nat
  | [] => ([], [])
  | c :: rest =>
      if c = 45 then ([], rest)
      else
        let p := splitDash rest
        (c :: p.1, p.2)

/-- `bytes.chunks(2)` with `u16::from_be_bytes`, an incomplete
trailing chunk dropped (the `filter_map` in the code). -/
def bytesToU16 : List Nat → List Nat
  | b1 :: b2 :: rest => (b1 * 256 + b2) :: bytesToU16 rest
  | _ => []

/-- Padding restoration by length mod 4 (the `match standard_base64.len() % 4`
in `decode_imap_utf7`). -/
def pad4 (standard : List Nat) : List Nat :=
  if standard.length % 4 = 2 then standard ++ [61, 61]
  else if standard.length % 4 = 3 then standard ++ [61]
  else standard

/-- `String::from_utf16`: code units to scalar values, surrogate pairs
combined, failing on any unpaired surrogate. -/
def utf16Decode : List Nat → Option (List Nat)
  | [] => some []
  | u :: rest =>
      if u < 55296 ∨ 57344 ≤ u then (utf16Decode rest).map (fun l => u :: l)
      else if u < 56320 then
        match rest with
        | v :: rest2 =>
            if 56320 ≤ v ∧ v < 57344 then
              (utf16Decode rest2).map
                (fun l => (65536 + (u - 55296) * 1024 + (v - 56320)) :: l)
            else none
        | [] => none
      else none

/-- The loop of `decode_imap_utf7`: `&-` is a literal `&`; `&…-` is
modified base64 (`,` restored to `/`, padding restored by length mod
4) decoded to UTF-16BE and then to characters, the original pushed
back verbatim when either decoding step fails.  `fuel` only bounds the
recursion depth (each step consumes at least one character, so
`fuel = s.length` always suffices). -/
def decodeUtf7Go : Nat → List Nat → List Nat
  | 0, _ => []
  | _ + 1, [] => []
  | fuel + 1, c :: rest =>
      if c = 38 then
        let p := splitDash rest
        if p.1 = [] then 38 :: decodeUtf7Go fuel p.2
        else
          let standard := p.1.map (fun x => if x = 44 then 47 else x)
          match base64Decode (pad4 standard) with
          | some bytes =>
              match utf16Decode (bytesToU16 bytes) with
              | some decoded => decoded ++ decodeUtf7Go fuel p.2
              | none => 38 :: (p.1 ++ 45 :: decodeUtf7Go fuel p.2)
          | none => 38 :: (p.1 ++ 45 :: decodeUtf7Go fuel p.2)
      else c :: decodeUtf7Go fuel rest

/-- `decode_imap_utf7`. -/
def decode_imap_utf7 (s : List Nat) : List Nat := decodeUtf7Go s.length s

/-- A valid Rust `char`: a Unicode scalar value (no surrogates). -/
def validChar (c : Nat) : Prop := c < 55296 ∨ (57344 ≤ c ∧ c < 1114112)

instance (c : Nat) : Decidable (validChar c) := by
  unfold validChar
  infer_instance

/-! ## UID sequence-set compaction (`uids_to_sequence` in
`imap/client.rs`)

The function sorts the UIDs (`sort_unstable`), then walks them keeping
the current run `range_start..range_end`, emitting `a:b` for a run and
`a` for a singleton, comma-separated.  The run-tracking loop is
modelled by `runsGo`; the string building by `renderIntervals`. -/

/-- Decimal digits of `n` (`u32::to_string`), as ASCII codes; `fuel`
only bounds the recursion depth (`n` itself more than suffices). -/
def natDigitsGo : Nat → Nat → List Nat
  | 0, _ => []
  | fuel + 1, n => if n < 10 then [48 + n] else natDigitsGo fuel (n / 10) ++ [48 + n % 10]

/-- Decimal rendering of a `Nat`. -/
def natDigits (n : Nat) : List Nat := natDigitsGo (n + 1) n

/-- The run-compaction loop: current run `(rs, re)` and the remaining
sorted UIDs; a UID equal to `re + 1` extends the run, anything else
closes it. -/
def runsGo : Nat → Nat → List Nat → List (Nat × Nat)
  | rs, re, [] => [(rs, re)]
  | rs, re, u :: rest => if u = re + 1 then runsGo rs u rest else (rs, re) :: runsGo u u rest

/-- The compacted runs of a sorted UID list. -/
def runs : List Nat → List (Nat × Nat)
  | [] => []
  | u :: rest => runsGo u u rest

/-- One emitted item: `a` for a singleton run, `a:b` otherwise. -/
def renderItem (p : Nat × Nat) : List Nat :=
  if p.1 = p.2 then natDigits p.1 else natDigits p.1 ++ 58 :: natDigits p.2

/-- Comma-joined items (`,` = 44), mirroring the
`if !result.is_empty() push(',')` logic. -/
def renderIntervals : List (Nat × Nat) → List Nat
  | [] => []
  | [p] => renderItem p
  | p :: q :: rest => renderItem p ++ 44 :: renderIntervals (q :: rest)

/-- `uids_to_sequence`: sort, compact into runs, render. -/
def uids_to_sequence (uids : List Nat) : List Nat :=
  renderIntervals (runs (uids.mergeSort (fun a b => a ≤ b)))

/-! ### The sequence-set grammar, modelled from the spec

The spec reads: a sequence is compacted into ranges (`a:b`) before
transmission; single UIDs remain as-is; items are comma-separated; the
compacted string parses back to the same UID set.  The following
parser is the denotation of that grammar (RFC 3501 sequence-set over
explicit UIDs; a range `a:b` denotes the UIDs between the endpoints in
either order). -/

/-- Split on a separator code; a faithful inverse of comma/colon
joining. -/
def splitSep (sep : Nat) : List Nat → List (List Nat)
  | [] => [[]]
  | c :: rest =>
      if c = sep then [] :: splitSep sep rest
      else
        match splitSep sep rest with
        | h :: t => (c :: h) :: t
        | [] => [[c]]

/-- Parse a non-empty all-digit string. -/
def parseNatOpt (s : List Nat) : Option Nat :=
  if s.isEmpty then none
  else if s.all (fun c => 48 ≤ c && c ≤ 57) then
    some (s.foldl (fun acc c => acc * 10 + (c - 48)) 0)
  else none

/-- Parse one sequence-set item: `n` or `a:b`. -/
def parseItem (s : List Nat) : Option (Nat × Nat) :=
  match splitSep 58 s with
  | [d] => (parseNatOpt d).map (fun n => (n, n))
  | [d1, d2] =>
      match parseNatOpt d1, parseNatOpt d2 with
      | some a, some b => some (Nat.min a b, Nat.max a b)
      | _, _ => none
  | _ => none

/-- Parse a whole sequence set into its closed intervals; the empty
string denotes the empty set. -/
def parseSeqSet (s : List Nat) : Option (List (Nat × Nat)) :=
  if s.isEmpty then some [] else (splitSep 44 s).mapM parseItem

/-- Membership in the UID set denoted by a sequence-set string. -/
def seqMem (s : List Nat) (x : Nat) : Prop :=
  match parseSeqSet s with
  | some ivs => ∃ p ∈ ivs, p.1 ≤ x ∧ x ≤ p.2
  | none => False

instance (s : List Nat) (x : Nat) : Decidable (seqMem s x) := by
  unfold seqMem
  cases parseSeqSet s with
  | none => exact inferInstanceAs (Decidable False)
  | some ivs => exact inferInstanceAs (Decidable (∃ p ∈ ivs, p.1 ≤ x ∧ x ≤ p.2))

/-- Well-formed interval list: every `a:b` has `a ≤ b`. -/
def intervalsWF (rep : List (Nat × Nat)) : Prop := ∀ p ∈ rep, p.1 ≤ p.2

instance (rep : List (Nat × Nat)) : Decidable (intervalsWF rep) := by
  unfold intervalsWF
  infer_instance

/-- The UID set covered by an interval list, as a `Finset`. -/
def intervalsFinset (rep : List (Nat × Nat)) : Finset Nat :=
  rep.foldr (fun p acc => Finset.Icc p.1 p.2 ∪ acc) ∅

/-! ## Helper lemmas about list operations -/

theorem length_filter_add_length_filter_not {α : Type} (p : α → Bool) (l : List α) :
    (l.filter (fun a => p a)).length + (l.filter (fun a => !p a)).length = l.length := by
  induction l with
  | nil => rfl
  | cons a l ih =>
    by_cases h : p a = true <;> simp [List.filter, h] <;> omega

theorem filter_map_comm {α β : Type} (f : α → β) (p : β → Bool) (l : List α) :
    (l.map f).filter p = (l.filter (fun a => p (f a))).map f := by
  induction l with
  | nil => rfl
  | cons a l ih =>
    by_cases h : p (f a) = true <;> simp [List.filter, h, ih]

theorem store_attachment_metadata_emails (db : CacheDb) (folder : String) (uid : Nat)
    (att : Attachment) : (store_attachment_metadata db folder uid att).emails = db.emails := rfl

theorem foldl_store_attachment_metadata_emails (db : CacheDb) (folder : String) (uid : Nat)
    (atts : List Attachment) :
    (atts.foldl (fun acc att => store_attachment_metadata acc folder uid att) db).emails
      = db.emails := by
  induction atts generalizing db with
  | nil => rfl
  | cons a l ih => simpa [store_attachment_metadata] using ih _

/-! ## Lemmas about base64 -/

theorem charToSextet_sextetToChar : ∀ i < 64, charToSextet (sextetToChar i) = some i := by
  decide

theorem sextetToChar_ne : ∀ i < 64,
    sextetToChar i ≠ 61 ∧ sextetToChar i ≠ 45 ∧ sextetToChar i ≠ 44 := by
  decide

/-- Every character of a base64 encoding of bytes is either an
alphabet character or the padding `=`. -/
theorem base64Encode_mem (bs : List Nat) (hb : ∀ b ∈ bs, b < 256) :
    ∀ x ∈ base64Encode bs, (∃ i, i < 64 ∧ x = sextetToChar i) ∨ x = 61 := by
  match bs with
  | [] => simp [base64Encode]
  | [b1] =>
    have h1 := hb b1 (by simp)
    intro x hx
    simp only [base64Encode, List.mem_cons, List.not_mem_nil, or_false] at hx
    rcases hx with h | h | h | h
    · exact Or.inl ⟨b1 / 4, by omega, h⟩
    · exact Or.inl ⟨b1 % 4 * 16, by omega, h⟩
    · exact Or.inr h
    · exact Or.inr h
  | [b1, b2] =>
    have h1 := hb b1 (by simp)
    have h2 := hb b2 (by simp)
    intro x hx
    simp only [base64Encode, List.mem_cons, List.not_mem_nil, or_false] at hx
    rcases hx with h | h | h | h
    · exact Or.inl ⟨b1 / 4, by omega, h⟩
    · exact Or.inl ⟨b1 % 4 * 16 + b2 / 16, by omega, h⟩
    · exact Or.inl ⟨b2 % 16 * 4, by omega, h⟩
    · exact Or.inr h
  | b1 :: b2 :: b3 :: rest =>
    have h1 := hb b1 (by simp)
    have h2 := hb b2 (by simp)
    have h3 := hb b3 (by simp)
    have ih := base64Encode_mem rest (fun b hbm => hb b (by simp [hbm]))
    intro x hx
    rw [show base64Encode (b1 :: b2 :: b3 :: rest)
        = sextetToChar (b1 / 4) :: sextetToChar (b1 % 4 * 16 + b2 / 16) ::
          sextetToChar (b2 % 16 * 4 + b3 / 64) :: sextetToChar (b3 % 64) ::
            base64Encode rest from rfl] at hx
    simp only [List.mem_cons] at hx
    rcases hx with h | h | h | h | h
    · exact Or.inl ⟨b1 / 4, by omega, h⟩
    · exact Or.inl ⟨b1 % 4 * 16 + b2 / 16, by omega, h⟩
    · exact Or.inl ⟨b2 % 16 * 4 + b3 / 64, by omega, h⟩
    · exact Or.inl ⟨b3 % 64, by omega, h⟩
    · exact ih x h

/-- Characters of a base64 encoding are never `-` or `,`. -/
theorem base64Encode_ne_45_44 (bs : List Nat) (hb : ∀ b ∈ bs, b < 256) :
    ∀ x ∈ base64Encode bs, x ≠ 45 ∧ x ≠ 44 := by
  intro x hx
  rcases base64Encode_mem bs hb x hx with ⟨i, hi, hxe⟩ | hxe
  · exact hxe ▸ ⟨(sextetToChar_ne i hi).2.1, (sextetToChar_ne i hi).2.2⟩
  · simp [hxe]

theorem trimTrailingEq_subset (l : List Nat) : ∀ x ∈ trimTrailingEq l, x ∈ l := by
  intro x hx
  rw [trimTrailingEq, List.mem_reverse] at hx
  have := (List.dropWhile_sublist (l := l.reverse) (fun c => c == 61)).subset hx
  rwa [List.mem_reverse] at this

/-- Trimming trailing `=` from `xs ++ ys` leaves `xs` intact when `xs`
contains no `=`. -/
theorem trimTrailingEq_append (xs ys : List Nat) (h : ∀ x ∈ xs, x ≠ 61) :
    trimTrailingEq (xs ++ ys) = xs ++ trimTrailingEq ys := by
  have hxsrev : ∀ x ∈ xs.reverse, ¬((fun c => c == 61) x = true) := by
    intro x hx
    simp only [beq_iff_eq]
    exact h x (List.mem_reverse.mp hx)
  have hdrop : xs.reverse.dropWhile (fun c => c == 61) = xs.reverse := by
    cases hxs : xs.reverse with
    | nil => rfl
    | cons a t =>
      rw [List.dropWhile_cons_of_neg]
      exact hxsrev a (by rw [hxs]; exact List.mem_cons_self a t)
  rw [trimTrailingEq, trimTrailingEq, List.reverse_append, List.dropWhile_append, hdrop]
  by_cases hemp : (ys.reverse.dropWhile (fun c => c == 61)).isEmpty
  · rw [if_pos hemp]
    rw [List.isEmpty_iff] at hemp
    rw [hemp]
    simp
  · rw [if_neg hemp]
    simp

/-- `pad4` acts after a complete leading group. -/
theorem pad4_append_group (g t : List Nat) (hg : g.length % 4 = 0) :
    pad4 (g ++ t) = g ++ pad4 t := by
  have hlen : (g ++ t).length % 4 = t.length % 4 := by
    simp only [List.length_append]
    omega
  unfold pad4
  rw [hlen]
  by_cases h2 : t.length % 4 = 2
  · simp [h2, List.append_assoc]
  · by_cases h3 : t.length % 4 = 3 <;> simp [h2, h3, List.append_assoc]

/-- Restoring padding after trimming recovers a base64 encoding. -/
theorem pad4_trimTrailingEq_base64Encode (bs : List Nat) (hb : ∀ b ∈ bs, b < 256) :
    pad4 (trimTrailingEq (base64Encode bs)) = base64Encode bs := by
  match bs with
  | [] => rfl
  | [b1] =>
    have h1 := hb b1 (by simp)
    have hs1 : sextetToChar (b1 / 4) ≠ 61 := (sextetToChar_ne _ (by omega)).1
    have hs2 : sextetToChar (b1 % 4 * 16) ≠ 61 := (sextetToChar_ne _ (by omega)).1
    show pad4 (trimTrailingEq
      ([sextetToChar (b1 / 4), sextetToChar (b1 % 4 * 16)] ++ [61, 61])) = _
    rw [trimTrailingEq_append _ _ (by simp [hs1, hs2])]
    have : trimTrailingEq [61, 61] = [] := rfl
    rw [this, List.append_nil, pad4]
    norm_num [base64Encode]
  | [b1, b2] =>
    have h1 := hb b1 (by simp)
    have h2 := hb b2 (by simp)
    have hs1 : sextetToChar (b1 / 4) ≠ 61 := (sextetToChar_ne _ (by omega)).1
    have hs2 : sextetToChar (b1 % 4 * 16 + b2 / 16) ≠ 61 := (sextetToChar_ne _ (by omega)).1
    have hs3 : sextetToChar (b2 % 16 * 4) ≠ 61 := (sextetToChar_ne _ (by omega)).1
    show pad4 (trimTrailingEq
      ([sextetToChar (b1 / 4), sextetToChar (b1 % 4 * 16 + b2 / 16),
        sextetToChar (b2 % 16 * 4)] ++ [61])) = _
    rw [trimTrailingEq_append _ _ (by simp [hs1, hs2, hs3])]
    have : trimTrailingEq [61] = [] := rfl
    rw [this, List.append_nil, pad4]
    norm_num [base64Encode]
  | b1 :: b2 :: b3 :: rest =>
    have h1 := hb b1 (by simp)
    have h2 := hb b2 (by simp)
    have h3 := hb b3 (by simp)
    have hrest : ∀ b ∈ rest, b < 256 := fun b hbm => hb b (by simp [hbm])
    have ih := pad4_trimTrailingEq_base64Encode rest hrest
    have hgrp : ∀ x ∈ [sextetToChar (b1 / 4), sextetToChar (b1 % 4 * 16 + b2 / 16),
        sextetToChar (b2 % 16 * 4 + b3 / 64), sextetToChar (b3 % 64)], x ≠ 61 := by
      intro x hx
      simp only [List.mem_cons, List.not_mem_nil, or_false] at hx
      rcases hx with h | h | h | h <;>
        exact h ▸ (sextetToChar_ne _ (by omega)).1
    show pad4 (trimTrailingEq
      ([sextetToChar (b1 / 4), sextetToChar (b1 % 4 * 16 + b2 / 16),
        sextetToChar (b2 % 16 * 4 + b3 / 64), sextetToChar (b3 % 64)]
        ++ base64Encode rest)) = _
    rw [trimTrailingEq_append _ _ hgrp, pad4_append_group _ _ (by simp), ih]
    simp [base64Encode]

/-- Decoding a base64 encoding recovers the bytes. -/
theorem base64Decode_base64Encode (bs : List Nat) (hb : ∀ b ∈ bs, b < 256) :
    base64Decode (base64Encode bs) = some bs := by
  match bs with
  | [] => rfl
  | [b1] =>
    have h1 := hb b1 (by simp)
    have e1 : charToSextet (sextetToChar (b1 / 4)) = some (b1 / 4) :=
      charToSextet_sextetToChar _ (by omega)
    have e2 : charToSextet (sextetToChar (b1 % 4 * 16)) = some (b1 % 4 * 16) :=
      charToSextet_sextetToChar _ (by omega)
    have hmod : b1 % 4 * 16 % 16 = 0 := by omega
    have harith : b1 / 4 * 4 + b1 % 4 * 16 / 16 = b1 := by omega
    simp [base64Encode, base64Decode, e1, e2, hmod, harith] <;> omega
  | [b1, b2] =>
    have h1 := hb b1 (by simp)
    have h2 := hb b2 (by simp)
    have e1 : charToSextet (sextetToChar (b1 / 4)) = some (b1 / 4) :=
      charToSextet_sextetToChar _ (by omega)
    have e2 : charToSextet (sextetToChar (b1 % 4 * 16 + b2 / 16))
        = some (b1 % 4 * 16 + b2 / 16) := charToSextet_sextetToChar _ (by omega)
    have e3 : charToSextet (sextetToChar (b2 % 16 * 4)) = some (b2 % 16 * 4) :=
      charToSextet_sextetToChar _ (by omega)
    have hne3 : sextetToChar (b2 % 16 * 4) ≠ 61 := (sextetToChar_ne _ (by omega)).1
    have hmod : b2 % 16 * 4 % 4 = 0 := by omega
    have ha1 : (b1 / 4) * 4 + (b1 % 4 * 16 + b2 / 16) / 16 = b1 := by omega
    have ha2 : (b1 % 4 * 16 + b2 / 16) % 16 * 16 + b2 % 16 * 4 / 4 = b2 := by omega
    simp [base64Encode, base64Decode, e1, e2, e3, hne3, hmod, ha1, ha2] <;> omega
  | b1 :: b2 :: b3 :: rest =>
    have h1 := hb b1 (by simp)
    have h2 := hb b2 (by simp)
    have h3 := hb b3 (by simp)
    have hrest : ∀ b ∈ rest, b < 256 := fun b hbm => hb b (by simp [hbm])
    have ih := base64Decode_base64Encode rest hrest
    have e1 : charToSextet (sextetToChar (b1 / 4)) = some (b1 / 4) :=
      charToSextet_sextetToChar _ (by omega)
    have e2 : charToSextet (sextetToChar (b1 % 4 * 16 + b2 / 16))
        = some (b1 % 4 * 16 + b2 / 16) := charToSextet_sextetToChar _ (by omega)
    have e3 : charToSextet (sextetToChar (b2 % 16 * 4 + b3 / 64))
        = some (b2 % 16 * 4 + b3 / 64) := charToSextet_sextetToChar _ (by omega)
    have e4 : charToSextet (sextetToChar (b3 % 64)) = some (b3 % 64) :=
      charToSextet_sextetToChar _ (by omega)
    have hne3 : sextetToChar (b2 % 16 * 4 + b3 / 64) ≠ 61 :=
      (sextetToChar_ne _ (by omega)).1
    have hne4 : sextetToChar (b3 % 64) ≠ 61 := (sextetToChar_ne _ (by omega)).1
    have ha1 : (b1 / 4) * 4 + (b1 % 4 * 16 + b2 / 16) / 16 = b1 := by omega
    have ha2 : (b1 % 4 * 16 + b2 / 16) % 16 * 16 + (b2 % 16 * 4 + b3 / 64) / 4 = b2 := by
      omega
    have ha3 : (b2 % 16 * 4 + b3 / 64) % 4 * 64 + b3 % 64 = b3 := by omega
    rw [show base64Encode (b1 :: b2 :: b3 :: rest)
        = sextetToChar (b1 / 4) :: sextetToChar (b1 % 4 * 16 + b2 / 16) ::
          sextetToChar (b2 % 16 * 4 + b3 / 64) :: sextetToChar (b3 % 64) ::
            base64Encode rest from rfl]
    rw [base64Decode, e1, e2]
    simp only
    rw [if_neg hne3, e3]
    simp only
    rw [if_neg hne4, e4]
    simp only [ih, ha1, ha2, ha3]
    rfl

/-! ## Lemmas about UTF-16 and the Modified UTF-7 codec -/

theorem utf16Encode_lt (c : Nat) (h : validChar c) : ∀ u ∈ utf16Encode c, u < 65536 := by
  intro u hu
  rcases h with h | h <;>
  · unfold utf16Encode at hu
    split at hu <;> simp_all <;> omega

theorem utf16Units_lt (s : List Nat) (h : ∀ c ∈ s, validChar c) :
    ∀ u ∈ utf16Units s, u < 65536 := by
  intro u hu
  rw [utf16Units, List.mem_flatMap] at hu
  obtain ⟨c, hc, hum⟩ := hu
  exact utf16Encode_lt c (h c hc) u hum

theorem utf16beBytes_lt (s : List Nat) (h : ∀ c ∈ s, validChar c) :
    ∀ b ∈ utf16beBytes s, b < 256 := by
  intro b hb
  rw [utf16beBytes, List.mem_flatMap] at hb
  obtain ⟨u, hu, hbm⟩ := hb
  have := utf16Units_lt s h u hu
  simp only [List.mem_cons, List.not_mem_nil, or_false] at hbm
  rcases hbm with rfl | rfl <;> omega

theorem bytesToU16_flatMap (us : List Nat) (h : ∀ u ∈ us, u < 65536) :
    bytesToU16 (us.flatMap (fun u => [u / 256, u % 256])) = us := by
  induction us with
  | nil => rfl
  | cons u us ih =>
    have hu := h u (List.mem_cons_self u us)
    have hus : ∀ v ∈ us, v < 65536 := fun v hv => h v (List.mem_cons_of_mem u hv)
    have harith : u / 256 * 256 + u % 256 = u := by omega
    have hstep : (u :: us).flatMap (fun v => [v / 256, v % 256])
        = u / 256 :: u % 256 :: us.flatMap (fun v => [v / 256, v % 256]) := rfl
    rw [hstep, bytesToU16, harith, ih hus]

theorem utf16Decode_utf16Units (s : List Nat) (h : ∀ c ∈ s, validChar c) :
    utf16Decode (utf16Units s) = some s := by
  induction s with
  | nil => rfl
  | cons c s ih =>
    have hc := h c (List.mem_cons_self c s)
    have hs : ∀ x ∈ s, validChar x := fun x hx => h x (List.mem_cons_of_mem c hx)
    by_cases hbmp : c < 65536
    · have henc : utf16Encode c = [c] := by simp [utf16Encode, hbmp]
      have hcond : c < 55296 ∨ 57344 ≤ c := by
        rcases hc with h1 | h1
        · exact Or.inl h1
        · exact Or.inr h1.1
      have hstep : utf16Units (c :: s) = c :: utf16Units s := by
        rw [utf16Units, List.flatMap_cons, henc]
        rfl
      rw [hstep, utf16Decode.eq_def]
      simp only
      rw [if_pos hcond, ih hs]
      rfl
    · have hlt : c < 1114112 := by
        rcases hc with h1 | h1
        · omega
        · exact h1.2
      have henc : utf16Encode c
          = [55296 + (c - 65536) / 1024, 56320 + (c - 65536) % 1024] := by
        simp [utf16Encode, hbmp]
      have hq : (c - 65536) / 1024 < 1024 := by omega
      have hr : (c - 65536) % 1024 < 1024 := by omega
      have hstep : utf16Units (c :: s)
          = (55296 + (c - 65536) / 1024) :: (56320 + (c - 65536) % 1024) :: utf16Units s := by
        rw [utf16Units, List.flatMap_cons, henc]
        rfl
      rw [hstep, utf16Decode.eq_def]
      simp only
      rw [if_neg (by omega), if_pos (by omega)]
      rw [if_pos (by constructor <;> omega), ih hs]
      have harith : 65536 + (c - 65536) / 1024 * 1024 + (c - 65536) % 1024 = c := by
        omega
      simp [harith]

theorem splitDash_append (xs rest : List Nat) (h : 45 ∉ xs) :
    splitDash (xs ++ 45 :: rest) = (xs, rest) := by
  induction xs with
  | nil => simp [splitDash]
  | cons c xs ih =>
    have hc : c ≠ 45 := fun hc => h (hc ▸ List.mem_cons_self c xs)
    have hxs : 45 ∉ xs := fun hm => h (List.mem_cons_of_mem c hm)
    simp [splitDash, hc, ih hxs]

theorem map_comma_slash (l : List Nat) (h : ∀ x ∈ l, x ≠ 44) :
    ((l.map (fun c => if c = 47 then 44 else c)).map
      (fun x => if x = 44 then 47 else x)) = l := by
  induction l with
  | nil => rfl
  | cons c l ih =>
    have hc := h c (List.mem_cons_self c l)
    have hl : ∀ x ∈ l, x ≠ 44 := fun x hx => h x (List.mem_cons_of_mem c hx)
    by_cases h47 : c = 47
    · simp [h47, ih hl]
    · simp [h47, hc, ih hl]

theorem decodeUtf7Go_nil (fuel : Nat) : decodeUtf7Go fuel [] = [] := by
  cases fuel <;> rfl

/-- The base64 block emitted for a pending run decodes back to the
run: the heart of the `decode ∘ encode` round trip. -/
theorem decodeUtf7Go_block (fuel : Nat) (buf rest : List Nat)
    (hv : ∀ c ∈ buf, validChar c) (hne : buf ≠ []) :
    decodeUtf7Go (fuel + 1) (encode_utf16_to_imap_base64 buf ++ rest)
      = buf ++ decodeUtf7Go fuel rest := by
  have hbytes : ∀ b ∈ utf16beBytes buf, b < 256 := utf16beBytes_lt buf hv
  have hen45 : ∀ x ∈ trimTrailingEq (base64Encode (utf16beBytes buf)), x ≠ 45 ∧ x ≠ 44 :=
    fun x hx => base64Encode_ne_45_44 _ hbytes x (trimTrailingEq_subset _ x hx)
  -- the modified-alphabet characters contain no dash
  have hmod45 : 45 ∉ (trimTrailingEq (base64Encode (utf16beBytes buf))).map
      (fun c => if c = 47 then 44 else c) := by
    intro hm
    rw [List.mem_map] at hm
    obtain ⟨x, hx, hfx⟩ := hm
    by_cases h47 : x = 47
    · rw [h47] at hfx
      simp at hfx
    · rw [if_neg h47] at hfx
      exact (hen45 x hx).1 hfx
  -- the mailbox has at least one non-`=` character, so the trim is nonempty
  have hbufne : utf16beBytes buf ≠ [] := by
    intro hempty
    cases buf with
    | nil => exact hne rfl
    | cons c s =>
      have : utf16Encode c ≠ [] := by
        unfold utf16Encode
        split <;> simp
      have hunits : utf16Units (c :: s) = utf16Encode c ++ utf16Units s := by
        simp [utf16Units]
      cases henc : utf16Encode c with
      | nil => exact this henc
      | cons u us =>
        have : u / 256 ∈ utf16beBytes (c :: s) := by
          rw [utf16beBytes, hunits, henc]
          simp
        rw [hempty] at this
        exact List.not_mem_nil _ this
  have htrimne : trimTrailingEq (base64Encode (utf16beBytes buf)) ≠ [] := by
    intro hempty
    have hall : ∀ x ∈ (base64Encode (utf16beBytes buf)).reverse,
        (fun c => c == 61) x = true := by
      rw [← List.dropWhile_eq_nil_iff]
      have : (trimTrailingEq (base64Encode (utf16beBytes buf))).reverse = [] := by
        rw [hempty]; rfl
      rwa [trimTrailingEq, List.reverse_reverse] at this
    cases hbs : utf16beBytes buf with
    | nil => exact hbufne hbs
    | cons b bs =>
      have hhead : sextetToChar (b / 4) ∈ base64Encode (b :: bs) := by
        match bs with
        | [] => simp [base64Encode]
        | [b2] => simp [base64Encode]
        | b2 :: b3 :: brest =>
          rw [show base64Encode (b :: b2 :: b3 :: brest)
              = sextetToChar (b / 4) :: sextetToChar (b % 4 * 16 + b2 / 16) ::
                sextetToChar (b2 % 16 * 4 + b3 / 64) :: sextetToChar (b3 % 64) ::
                  base64Encode brest from rfl]
          simp
      have hb256 : b < 256 := hbytes b (by rw [hbs]; exact List.mem_cons_self _ _)
      have := hall (sextetToChar (b / 4)) (by rw [hbs, List.mem_reverse]; exact hhead)
      simp only [beq_iff_eq] at this
      exact (sextetToChar_ne (b / 4) (by omega)).1 this
  have hmodne : (trimTrailingEq (base64Encode (utf16beBytes buf))).map
      (fun c => if c = 47 then 44 else c) ≠ [] := by
    simpa using htrimne
  have hshape : encode_utf16_to_imap_base64 buf ++ rest
      = 38 :: ((trimTrailingEq (base64Encode (utf16beBytes buf))).map
          (fun c => if c = 47 then 44 else c) ++ 45 :: rest) := by
    simp [encode_utf16_to_imap_base64]
  rw [hshape, decodeUtf7Go, if_pos rfl,
    splitDash_append _ _ hmod45]
  rw [if_neg hmodne]
  rw [map_comma_slash _ (fun x hx => (hen45 x hx).2)]
  have hbu : bytesToU16 (utf16beBytes buf) = utf16Units buf :=
    bytesToU16_flatMap (utf16Units buf) (utf16Units_lt buf hv)
  simp only [pad4_trimTrailingEq_base64Encode _ hbytes,
    base64Decode_base64Encode _ hbytes, hbu, utf16Decode_utf16Units buf hv]

/-- Decoding an encoding with the pending buffer made explicit: the
whole encode loop is inverted by the decode loop whenever the fuel
covers the encoded length. -/
theorem decodeUtf7Go_encodeUtf7Go (s : List Nat) : ∀ (buf : List Nat) (fuel : Nat),
    (∀ c ∈ s, validChar c) → (∀ c ∈ buf, validChar c) →
    (encodeUtf7Go buf s).length ≤ fuel →
    decodeUtf7Go fuel (encodeUtf7Go buf s) = buf ++ s := by
  induction s with
  | nil =>
    intro buf fuel _ hbuf hfuel
    by_cases hb : buf = []
    · subst hb
      rw [show encodeUtf7Go ([] : List Nat) [] = [] from rfl, decodeUtf7Go_nil]
      rfl
    · have henc : encodeUtf7Go buf [] = encode_utf16_to_imap_base64 buf := by
        simp [encodeUtf7Go, hb]
      rw [henc] at hfuel ⊢
      have hlen : 0 < (encode_utf16_to_imap_base64 buf).length := by
        simp [encode_utf16_to_imap_base64]
      obtain ⟨f, rfl⟩ : ∃ f, fuel = f + 1 := ⟨fuel - 1, by omega⟩
      rw [← List.append_nil (encode_utf16_to_imap_base64 buf),
        decodeUtf7Go_block f buf [] hbuf hb, decodeUtf7Go_nil]
  | cons c s ih =>
    intro buf fuel hcs hbuf hfuel
    have hc : validChar c := hcs c (List.mem_cons_self c s)
    have hs : ∀ x ∈ s, validChar x := fun x hx => hcs x (List.mem_cons_of_mem c hx)
    by_cases hc38 : c = 38
    · subst hc38
      have henc : encodeUtf7Go buf (38 :: s)
          = (if buf = [] then [] else encode_utf16_to_imap_base64 buf)
            ++ 38 :: 45 :: encodeUtf7Go [] s := by
        simp [encodeUtf7Go]
      rw [henc] at hfuel ⊢
      by_cases hb : buf = []
      · subst hb
        simp only [reduceIte, List.nil_append] at hfuel ⊢
        simp only [List.length_cons] at hfuel
        obtain ⟨f, rfl⟩ : ∃ f, fuel = f + 1 := ⟨fuel - 1, by omega⟩
        rw [decodeUtf7Go, if_pos rfl,
          show splitDash (45 :: encodeUtf7Go [] s) = ([], encodeUtf7Go [] s) from by
            simp [splitDash]]
        simp only [if_pos rfl]
        rw [ih [] f hs (by simp) (by omega)]
        rfl
      · simp only [if_neg hb] at hfuel ⊢
        have hlen : 0 < (encode_utf16_to_imap_base64 buf).length := by
          simp [encode_utf16_to_imap_base64]
        simp only [List.length_append, List.length_cons] at hfuel
        obtain ⟨f, rfl⟩ : ∃ f, fuel = f + 1 := ⟨fuel - 1, by omega⟩
        rw [decodeUtf7Go_block f buf _ hbuf hb]
        obtain ⟨f2, rfl⟩ : ∃ f2, f = f2 + 1 := ⟨f - 1, by omega⟩
        rw [decodeUtf7Go, if_pos rfl,
          show splitDash (45 :: encodeUtf7Go [] s) = ([], encodeUtf7Go [] s) from by
            simp [splitDash]]
        simp only [if_pos rfl]
        rw [ih [] f2 hs (by simp) (by omega)]
        rfl
    · by_cases hpr : 32 ≤ c ∧ c ≤ 126
      · have henc : encodeUtf7Go buf (c :: s)
            = (if buf = [] then [] else encode_utf16_to_imap_base64 buf)
              ++ c :: encodeUtf7Go [] s := by
          rw [show encodeUtf7Go buf (c :: s)
            = if c = 38 then
                (if buf = [] then [] else encode_utf16_to_imap_base64 buf)
                  ++ 38 :: 45 :: encodeUtf7Go [] s
              else if 32 ≤ c ∧ c ≤ 126 then
                (if buf = [] then [] else encode_utf16_to_imap_base64 buf)
                  ++ c :: encodeUtf7Go [] s
              else encodeUtf7Go (buf ++ [c]) s from rfl]
          rw [if_neg hc38, if_pos hpr]
        rw [henc] at hfuel ⊢
        by_cases hb : buf = []
        · subst hb
          simp only [reduceIte, List.nil_append] at hfuel ⊢
          simp only [List.length_cons] at hfuel
          obtain ⟨f, rfl⟩ : ∃ f, fuel = f + 1 := ⟨fuel - 1, by omega⟩
          rw [decodeUtf7Go, if_neg hc38]
          rw [ih [] f hs (by simp) (by omega)]
          rfl
        · simp only [if_neg hb] at hfuel ⊢
          have hlen : 0 < (encode_utf16_to_imap_base64 buf).length := by
            simp [encode_utf16_to_imap_base64]
          simp only [List.length_append, List.length_cons] at hfuel
          obtain ⟨f, rfl⟩ : ∃ f, fuel = f + 1 := ⟨fuel - 1, by omega⟩
          rw [decodeUtf7Go_block f buf _ hbuf hb]
          obtain ⟨f2, rfl⟩ : ∃ f2, f = f2 + 1 := ⟨f - 1, by omega⟩
          rw [decodeUtf7Go, if_neg hc38]
          rw [ih [] f2 hs (by simp) (by omega)]
          rfl
      · have henc : encodeUtf7Go buf (c :: s) = encodeUtf7Go (buf ++ [c]) s := by
          rw [show encodeUtf7Go buf (c :: s)
            = if c = 38 then
                (if buf = [] then [] else encode_utf16_to_imap_base64 buf)
                  ++ 38 :: 45 :: encodeUtf7Go [] s
              else if 32 ≤ c ∧ c ≤ 126 then
                (if buf = [] then [] else encode_utf16_to_imap_base64 buf)
                  ++ c :: encodeUtf7Go [] s
              else encodeUtf7Go (buf ++ [c]) s from rfl]
          rw [if_neg hc38, if_neg hpr]
        rw [henc] at hfuel ⊢
        have hbc : ∀ x ∈ buf ++ [c], validChar x := by
          intro x hx
          rcases List.mem_append.mp hx with h | h
          · exact hbuf x h
          · simp only [List.mem_cons, List.not_mem_nil, or_false] at h
            exact h ▸ hc
        rw [ih (buf ++ [c]) fuel hs hbc hfuel]
        simp

/-! ## Lemmas about the RFC 2047 decoder -/

theorem splitAtQ_append (xs rest : List Nat) (h : 63 ∉ xs) :
    splitAtQ (xs ++ 63 :: rest) = some (xs, rest) := by
  induction xs with
  | nil => simp [splitAtQ]
  | cons c xs ih =>
    have hc : c ≠ 63 := fun hc => h (hc ▸ List.mem_cons_self c xs)
    have hxs : 63 ∉ xs := fun hm => h (List.mem_cons_of_mem c hm)
    simp [splitAtQ, hc, ih hxs]

theorem scanText_append (xs rest : List Nat) (h : 63 ∉ xs) :
    scanText (xs ++ 63 :: 61 :: rest) = some (xs, rest) := by
  induction xs with
  | nil => simp [scanText]
  | cons c xs ih =>
    have hc : c ≠ 63 := fun hc => h (hc ▸ List.mem_cons_self c xs)
    have hxs : 63 ∉ xs := fun hm => h (List.mem_cons_of_mem c hm)
    cases xs with
    | nil => simp [scanText, hc]
    | cons c2 xs2 => simpa [scanText, hc] using ih hxs

theorem qpGo_safe (t : List Nat) (h : ∀ x ∈ t, x < 128 ∧ x ≠ 61) : qpGo t = t := by
  induction t with
  | nil => rfl
  | cons c t ih =>
    have hc := h c (List.mem_cons_self c t)
    have ht : ∀ x ∈ t, x < 128 ∧ x ≠ 61 := fun x hx => h x (List.mem_cons_of_mem c hx)
    have hmod : c % 256 = c := Nat.mod_eq_of_lt (by omega)
    rw [qpGo.eq_def]
    simp [hc.2, hmod, ih ht]

theorem utf8LossyGo_ascii (fuel : Nat) (t : List Nat) (hf : t.length ≤ fuel)
    (h : ∀ x ∈ t, x < 128) : utf8LossyGo fuel t = t := by
  induction fuel generalizing t with
  | zero =>
    cases t with
    | nil => rfl
    | cons c t => simp at hf
  | succ fuel ih =>
    cases t with
    | nil => rfl
    | cons c t =>
      have hc : c < 128 := h c (List.mem_cons_self c t)
      have ht : ∀ x ∈ t, x < 128 := fun x hx => h x (List.mem_cons_of_mem c hx)
      have hlen : t.length ≤ fuel := by simpa using hf
      simp [utf8LossyGo, hc, ih t hlen ht]

theorem utf8Lossy_ascii (t : List Nat) (h : ∀ x ∈ t, x < 128) : utf8Lossy t = t :=
  utf8LossyGo_ascii t.length t le_rfl h

theorem map_underscore_id (t : List Nat) (h : ∀ x ∈ t, x ≠ 95) :
    t.map (fun c => if c = 95 then 32 else c) = t := by
  induction t with
  | nil => rfl
  | cons c t ih =>
    have hc := h c (List.mem_cons_self c t)
    simp [hc, ih (fun x hx => h x (List.mem_cons_of_mem c hx))]

theorem decodeEncodedWord_utf8_q_safe (t : List Nat) (h : qSafe t) :
    decodeEncodedWord (codes ("UTF-8")) 81 t = some t := by
  have hmap : t.map (fun c => if c = 95 then 32 else c) = t :=
    map_underscore_id t (fun x hx => (h x hx).2.2.2)
  have hqp : qpGo t = t := qpGo_safe t (fun x hx => ⟨(h x hx).1, (h x hx).2.2.1⟩)
  have hlossy : utf8Lossy t = t := utf8Lossy_ascii t (fun x hx => (h x hx).1)
  simp [decodeEncodedWord, toAsciiUpper, decode_quoted_printable, hmap, hqp, hlossy,
    eqIgnoreAsciiCase, codes, toAsciiLower]

theorem rfc2047Go_nil (fuel : Nat) : rfc2047Go fuel [] = [] := by
  cases fuel <;> rfl

/-- Processing one safe `Q`-encoded word at the head of the input:
its decoded text is emitted, then the whitespace loop runs on the
remainder. -/
theorem rfc2047Go_qWord (fuel : Nat) (t rest : List Nat) (h : qSafe t) :
    rfc2047Go (fuel + 1) (qWord t ++ rest)
      = t ++ (wsSkip rest).1 ++ rfc2047Go fuel (wsSkip rest).2 := by
  have hassoc : qWord t ++ rest
      = 61 :: 63 :: (codes ("UTF-8") ++ 63 :: (81 :: (63 :: (t ++ 63 :: 61 :: rest)))) := by
    simp [qWord, codes]
  have hsplit : splitAtQ (codes ("UTF-8") ++ 63 :: (81 :: (63 :: (t ++ 63 :: 61 :: rest))))
      = some (codes ("UTF-8"), 81 :: (63 :: (t ++ 63 :: 61 :: rest))) :=
    splitAtQ_append _ _ (by decide)
  have hnotq : (63 : Nat) ∉ t := by
    intro hm
    exact (h 63 hm).2.1 rfl
  have hscan : scanText (t ++ 63 :: 61 :: rest) = some (t, rest) :=
    scanText_append _ _ hnotq
  rw [hassoc]
  simp only [rfc2047Go, List.head?_cons, List.tail_cons, Option.some.injEq,
    eq_self_iff_true, and_self, if_true, true_and, and_true]
  rw [hsplit]
  simp only [List.head?_cons, List.tail_cons, Option.some.injEq, eq_self_iff_true, if_true]
  rw [hscan]
  simp only [decodeEncodedWord_utf8_q_safe t h]

/-! ## Lemmas about sequence-set compaction -/

theorem natDigitsGo_spec : ∀ fuel n, n < fuel →
    natDigitsGo fuel n ≠ []
    ∧ (∀ c ∈ natDigitsGo fuel n, 48 ≤ c ∧ c ≤ 57)
    ∧ (natDigitsGo fuel n).foldl (fun acc c => acc * 10 + (c - 48)) 0 = n := by
  intro fuel
  induction fuel with
  | zero => intro n h; omega
  | succ fuel ih =>
    intro n hn
    by_cases h10 : n < 10
    · refine ⟨by simp [natDigitsGo, h10], ?_, ?_⟩
      · intro c hc
        simp only [natDigitsGo, if_pos h10, List.mem_cons, List.not_mem_nil, or_false] at hc
        omega
      · simp only [natDigitsGo, if_pos h10, List.foldl_cons, List.foldl_nil]
        omega
    · have hrec : n / 10 < fuel := by omega
      obtain ⟨hne, hdig, hval⟩ := ih (n / 10) hrec
      rw [show natDigitsGo (fuel + 1) n
          = natDigitsGo fuel (n / 10) ++ [48 + n % 10] from by
        simp [natDigitsGo, h10]]
      refine ⟨by simp, ?_, ?_⟩
      · intro c hc
        rcases List.mem_append.mp hc with h | h
        · exact hdig c h
        · simp only [List.mem_cons, List.not_mem_nil, or_false] at h
          omega
      · rw [List.foldl_append, hval]
        simp only [List.foldl_cons, List.foldl_nil]
        omega

theorem natDigits_ne_nil (n : Nat) : natDigits n ≠ [] :=
  (natDigitsGo_spec (n + 1) n (by omega)).1

theorem natDigits_digits (n : Nat) : ∀ c ∈ natDigits n, 48 ≤ c ∧ c ≤ 57 :=
  (natDigitsGo_spec (n + 1) n (by omega)).2.1

theorem natDigits_val (n : Nat) :
    (natDigits n).foldl (fun acc c => acc * 10 + (c - 48)) 0 = n :=
  (natDigitsGo_spec (n + 1) n (by omega)).2.2

theorem parseNatOpt_natDigits (n : Nat) : parseNatOpt (natDigits n) = some n := by
  have hne := natDigits_ne_nil n
  have hdig := natDigits_digits n
  rw [parseNatOpt, if_neg (by simpa [List.isEmpty_iff] using hne)]
  rw [if_pos]
  · rw [natDigits_val]
  · rw [List.all_eq_true]
    intro c hc
    have := hdig c hc
    simp only [Bool.and_eq_true, decide_eq_true_eq]
    omega

theorem splitSep_no_sep (sep : Nat) (xs : List Nat) (h : sep ∉ xs) :
    splitSep sep xs = [xs] := by
  induction xs with
  | nil => rfl
  | cons c rest ih =>
    have hc : c ≠ sep := fun hc => h (hc ▸ List.mem_cons_self c rest)
    have hr : sep ∉ rest := fun hm => h (List.mem_cons_of_mem c hm)
    simp [splitSep, hc, ih hr]

theorem splitSep_append (sep : Nat) (xs ys : List Nat) (h : sep ∉ xs) :
    splitSep sep (xs ++ sep :: ys) = xs :: splitSep sep ys := by
  induction xs with
  | nil => simp [splitSep]
  | cons c rest ih =>
    have hc : c ≠ sep := fun hc => h (hc ▸ List.mem_cons_self c rest)
    have hr : sep ∉ rest := fun hm => h (List.mem_cons_of_mem c hm)
    rw [List.cons_append, splitSep, if_neg hc, ih hr]

theorem renderItem_ne_nil (p : Nat × Nat) : renderItem p ≠ [] := by
  rw [renderItem]
  by_cases h : p.1 = p.2
  · simpa [h] using natDigits_ne_nil p.1
  · simp only [if_neg h]
    intro hcontra
    exact natDigits_ne_nil p.1 (List.append_eq_nil.mp hcontra).1

theorem renderItem_mem (p : Nat × Nat) :
    ∀ c ∈ renderItem p, (48 ≤ c ∧ c ≤ 57) ∨ c = 58 := by
  intro c hc
  rw [renderItem] at hc
  by_cases h : p.1 = p.2
  · rw [if_pos h] at hc
    exact Or.inl (natDigits_digits _ c hc)
  · rw [if_neg h] at hc
    rcases List.mem_append.mp hc with h1 | h1
    · exact Or.inl (natDigits_digits _ c h1)
    · rcases List.mem_cons.mp h1 with h2 | h2
      · exact Or.inr h2
      · exact Or.inl (natDigits_digits _ c h2)

theorem parseItem_renderItem (p : Nat × Nat) (hwf : p.1 ≤ p.2) :
    parseItem (renderItem p) = some p := by
  obtain ⟨a, b⟩ := p
  by_cases h : a = b
  · subst h
    rw [show renderItem (a, a) = natDigits a from by simp [renderItem], parseItem,
      splitSep_no_sep 58 _ (fun hm => by have := natDigits_digits a 58 hm; omega)]
    simp [parseNatOpt_natDigits]
  · have hab : a ≤ b := hwf
    have hmin : Nat.min a b = a := Nat.min_eq_left hab
    have hmax : Nat.max a b = b := Nat.max_eq_right hab
    rw [show renderItem (a, b) = natDigits a ++ 58 :: natDigits b from by
        simp [renderItem, h], parseItem,
      splitSep_append 58 _ _ (fun hm => by have := natDigits_digits a 58 hm; omega),
      splitSep_no_sep 58 _ (fun hm => by have := natDigits_digits b 58 hm; omega)]
    simp [parseNatOpt_natDigits, hmin, hmax]

theorem renderIntervals_ne_nil (p : Nat × Nat) (rest : List (Nat × Nat)) :
    renderIntervals (p :: rest) ≠ [] := by
  cases rest with
  | nil => exact renderItem_ne_nil p
  | cons q rest =>
    rw [renderIntervals]
    intro hcontra
    exact renderItem_ne_nil p (List.append_eq_nil.mp hcontra).1

theorem parseSeqSet_renderIntervals (ivs : List (Nat × Nat)) (hwf : intervalsWF ivs) :
    parseSeqSet (renderIntervals ivs) = some ivs := by
  induction ivs with
  | nil => rfl
  | cons p rest ih =>
    have hp : p.1 ≤ p.2 := hwf p (List.mem_cons_self p rest)
    have hrest : intervalsWF rest := fun q hq => hwf q (List.mem_cons_of_mem p hq)
    have h44 : 44 ∉ renderItem p := by
      intro hm
      rcases renderItem_mem p 44 hm with h1 | h1 <;> omega
    cases rest with
    | nil =>
      rw [show renderIntervals [p] = renderItem p from rfl, parseSeqSet,
        if_neg (by simpa [List.isEmpty_iff] using renderItem_ne_nil p),
        splitSep_no_sep 44 _ h44]
      rw [List.mapM_cons, parseItem_renderItem p hp]
      rfl
    | cons q rest2 =>
      rw [show renderIntervals (p :: q :: rest2)
          = renderItem p ++ 44 :: renderIntervals (q :: rest2) from rfl, parseSeqSet,
        if_neg (by
          simp only [List.isEmpty_iff]
          intro hcontra
          exact renderItem_ne_nil p (List.append_eq_nil.mp hcontra).1),
        splitSep_append 44 _ _ h44]
      have hih := ih hrest
      rw [parseSeqSet, if_neg (by
        simpa [List.isEmpty_iff] using renderIntervals_ne_nil q rest2)] at hih
      rw [List.mapM_cons, parseItem_renderItem p hp, hih]
      rfl

/-- Invariants of the run-compaction loop on a strictly sorted
remainder: the produced intervals are well formed, cover exactly the
current run plus the rest, are separated by gaps, and start at the
current `range_start`. -/
theorem runsGo_spec : ∀ (rest : List Nat) (rs re : Nat), rs ≤ re →
    List.Chain' (· < ·) (re :: rest) →
    (∀ p ∈ runsGo rs re rest, p.1 ≤ p.2)
    ∧ (∀ x, (∃ p ∈ runsGo rs re rest, p.1 ≤ x ∧ x ≤ p.2)
        ↔ ((rs ≤ x ∧ x ≤ re) ∨ x ∈ rest))
    ∧ List.Chain' (fun p q => p.2 + 1 < q.1) (runsGo rs re rest)
    ∧ (runsGo rs re rest).head?.map Prod.fst = some rs := by
  intro rest
  induction rest with
  | nil =>
    intro rs re h _
    refine ⟨?_, ?_, by simp [runsGo], rfl⟩
    · intro p hp
      simp only [runsGo, List.mem_cons, List.not_mem_nil, or_false] at hp
      exact hp ▸ h
    · intro x
      simp [runsGo]
  | cons u rest ih =>
    intro rs re hrsre hch
    have hreu : re < u := (List.chain'_cons.mp hch).1
    have hch2 : List.Chain' (· < ·) (u :: rest) := (List.chain'_cons.mp hch).2
    by_cases he : u = re + 1
    · obtain ⟨ih1, ih2, ih3, ih4⟩ := ih rs u (by omega) hch2
      rw [runsGo, if_pos he]
      refine ⟨ih1, ?_, ih3, ih4⟩
      intro x
      rw [ih2 x]
      simp only [List.mem_cons]
      constructor
      · rintro (⟨h1, h2⟩ | hm)
        · by_cases hxu : x = u
          · exact Or.inr (Or.inl hxu)
          · exact Or.inl ⟨h1, by omega⟩
        · exact Or.inr (Or.inr hm)
      · rintro (⟨h1, h2⟩ | rfl | hm)
        · exact Or.inl ⟨h1, by omega⟩
        · exact Or.inl ⟨by omega, le_rfl⟩
        · exact Or.inr hm
    · have hgap : re + 1 < u := by omega
      obtain ⟨ih1, ih2, ih3, ih4⟩ := ih u u le_rfl hch2
      rw [runsGo, if_neg he]
      refine ⟨?_, ?_, ?_, rfl⟩
      · intro p hp
        rcases List.mem_cons.mp hp with rfl | hm
        · exact hrsre
        · exact ih1 p hm
      · intro x
        simp only [List.mem_cons]
        constructor
        · rintro ⟨p, rfl | hm, hx1, hx2⟩
          · exact Or.inl ⟨hx1, hx2⟩
          · rcases (ih2 x).mp ⟨p, hm, hx1, hx2⟩ with ⟨h1, h2⟩ | hm2
            · exact Or.inr (Or.inl (by omega))
            · exact Or.inr (Or.inr hm2)
        · rintro (⟨h1, h2⟩ | rfl | hm)
          · exact ⟨(rs, re), Or.inl rfl, h1, h2⟩
          · obtain ⟨p, hm, hx⟩ := (ih2 x).mpr (Or.inl ⟨le_rfl, le_rfl⟩)
            exact ⟨p, Or.inr hm, hx⟩
          · obtain ⟨p, hm, hx⟩ := (ih2 x).mpr (Or.inr hm)
            exact ⟨p, Or.inr hm, hx⟩
      · rw [List.chain'_cons']
        refine ⟨?_, ih3⟩
        intro q hq
        have hq1 : q.1 = u := by
          cases hh : (runsGo u u rest).head? with
          | none =>
            rw [hh] at hq
            simp at hq
          | some q2 =>
            rw [hh] at hq ih4
            have hq2 : q2 = q := by simpa using hq
            have hfst : q2.1 = u := by simpa using ih4
            rw [← hq2]
            exact hfst
        simp only [hq1]
        omega

/-- The compacted runs of a strictly sorted list: well formed,
covering exactly the list's elements, separated by gaps. -/
theorem runs_spec (l : List Nat) (hs : List.Chain' (· < ·) l) :
    (∀ p ∈ runs l, p.1 ≤ p.2)
    ∧ (∀ x, (∃ p ∈ runs l, p.1 ≤ x ∧ x ≤ p.2) ↔ x ∈ l)
    ∧ List.Chain' (fun p q => p.2 + 1 < q.1) (runs l) := by
  cases l with
  | nil => exact ⟨by simp [runs], by simp [runs], by simp [runs]⟩
  | cons u rest =>
    obtain ⟨h1, h2, h3, _⟩ := runsGo_spec rest u u le_rfl hs
    refine ⟨h1, ?_, h3⟩
    intro x
    rw [show runs (u :: rest) = runsGo u u rest from rfl, h2 x]
    simp only [List.mem_cons]
    constructor
    · rintro (⟨ha, hb⟩ | hm)
      · exact Or.inl (by omega)
      · exact Or.inr hm
    · rintro (rfl | hm)
      · exact Or.inl ⟨le_rfl, le_rfl⟩
      · exact Or.inr hm

/-! ### Minimality of the compaction -/

theorem chain_sep_head (rest : List (Nat × Nat)) : ∀ (g : Nat × Nat),
    (∀ p ∈ rest, p.1 ≤ p.2) →
    List.Chain' (fun p q => p.2 + 1 < q.1) (g :: rest) →
    ∀ q ∈ rest, g.2 + 1 < q.1 := by
  induction rest with
  | nil => intro g _ _ q hq; simp at hq
  | cons b rest2 ih =>
    intro g hwf hch q hq
    have hgb : g.2 + 1 < b.1 := (List.chain'_cons.mp hch).1
    have hch2 : List.Chain' (fun p q => p.2 + 1 < q.1) (b :: rest2) :=
      (List.chain'_cons.mp hch).2
    rcases List.mem_cons.mp hq with rfl | hm
    · exact hgb
    · have hb : b.1 ≤ b.2 := hwf b (List.mem_cons_self b rest2)
      have := ih b (fun p hp => hwf p (List.mem_cons_of_mem b hp)) hch2 q hm
      omega

theorem chain_sep_pairwise (ivs : List (Nat × Nat))
    (hwf : ∀ p ∈ ivs, p.1 ≤ p.2)
    (hch : List.Chain' (fun p q => p.2 + 1 < q.1) ivs) :
    List.Pairwise (fun p q => p.2 + 1 < q.1) ivs := by
  induction ivs with
  | nil => exact List.Pairwise.nil
  | cons g rest ih =>
    rw [List.pairwise_cons]
    refine ⟨chain_sep_head rest g (fun p hp => hwf p (List.mem_cons_of_mem g hp)) hch, ?_⟩
    exact ih (fun p hp => hwf p (List.mem_cons_of_mem g hp)) (List.Chain'.tail hch)

theorem pairwise_mem_rel {α : Type} {R : α → α → Prop} (l : List α)
    (h : List.Pairwise R l) (a b : α) (ha : a ∈ l) (hb : b ∈ l) :
    a = b ∨ R a b ∨ R b a := by
  induction l with
  | nil => simp at ha
  | cons c rest ih =>
    rw [List.pairwise_cons] at h
    rcases List.mem_cons.mp ha with rfl | ha2
    · rcases List.mem_cons.mp hb with rfl | hb2
      · exact Or.inl rfl
      · exact Or.inr (Or.inl (h.1 b hb2))
    · rcases List.mem_cons.mp hb with rfl | hb2
      · exact Or.inr (Or.inr (h.1 a ha2))
      · exact ih h.2 ha2 hb2

/-- Every interval of a representation of the covered set lies inside
one of the gap-separated canonical intervals. -/
theorem rep_within (ivs rep : List (Nat × Nat))
    (hpw : List.Pairwise (fun p q => p.2 + 1 < q.1) ivs)
    (hwf2 : ∀ p ∈ rep, p.1 ≤ p.2)
    (hcov : ∀ x, (∃ p ∈ rep, p.1 ≤ x ∧ x ≤ p.2) ↔ (∃ g ∈ ivs, g.1 ≤ x ∧ x ≤ g.2)) :
    ∀ r ∈ rep, ∃ g ∈ ivs, g.1 ≤ r.1 ∧ r.2 ≤ g.2 := by
  intro r hr
  obtain ⟨g, hg, hg1, hg2⟩ := (hcov r.1).mp ⟨r, hr, le_rfl, hwf2 r hr⟩
  refine ⟨g, hg, hg1, ?_⟩
  by_contra hcontra
  have hy : ∃ p ∈ rep, p.1 ≤ g.2 + 1 ∧ g.2 + 1 ≤ p.2 := ⟨r, hr, by omega, by omega⟩
  obtain ⟨g2, hgm2, h1, h2⟩ := (hcov (g.2 + 1)).mp hy
  rcases pairwise_mem_rel ivs hpw g g2 hg hgm2 with rfl | hsep | hsep <;> omega

theorem countP_inG_one (ivs : List (Nat × Nat))
    (hpw : List.Pairwise (fun p q => p.2 + 1 < q.1) ivs) (r : Nat × Nat)
    (hr : r.1 ≤ r.2) (hex : ∃ g ∈ ivs, g.1 ≤ r.1 ∧ r.2 ≤ g.2) :
    ivs.countP (fun g => decide (g.1 ≤ r.1 ∧ r.2 ≤ g.2)) = 1 := by
  induction ivs with
  | nil => simp at hex
  | cons g rest ih =>
    rw [List.pairwise_cons] at hpw
    by_cases hg : g.1 ≤ r.1 ∧ r.2 ≤ g.2
    · rw [List.countP_cons_of_pos _ _ (by simpa using hg)]
      have hzero : rest.countP (fun g2 => decide (g2.1 ≤ r.1 ∧ r.2 ≤ g2.2)) = 0 := by
        rw [List.countP_eq_zero]
        intro g2 hg2
        simp only [decide_eq_true_eq]
        have := hpw.1 g2 hg2
        omega
      omega
    · rw [List.countP_cons_of_neg _ _ (by simpa using hg)]
      apply ih hpw.2
      rcases hex with ⟨g2, hgm, hprop⟩
      rcases List.mem_cons.mp hgm with rfl | hm
      · exact absurd hprop hg
      · exact ⟨g2, hm, hprop⟩

theorem sum_map_ite {α : Type} (l : List α) (q : α → Bool) (a : Nat) :
    (l.map (fun g => if q g then a else 0)).sum = a * l.countP q := by
  induction l with
  | nil => simp
  | cons g rest ih =>
    by_cases h : q g
    · rw [List.map_cons, if_pos h, List.sum_cons, ih, List.countP_cons_of_pos _ _ h]
      ring
    · rw [List.map_cons, if_neg h, List.sum_cons, ih,
        List.countP_cons_of_neg _ _ (by simpa using h)]
      omega

theorem sum_map_add {α : Type} (l : List α) (f g : α → Nat) :
    (l.map (fun x => f x + g x)).sum = (l.map f).sum + (l.map g).sum := by
  induction l with
  | nil => rfl
  | cons x rest ih =>
    simp only [List.map_cons, List.sum_cons, ih]
    omega

theorem sum_map_one {α : Type} (l : List α) : (l.map (fun _ => 1)).sum = l.length := by
  induction l with
  | nil => rfl
  | cons x rest ih =>
    simp only [List.map_cons, List.sum_cons, List.length_cons, ih]
    omega

/-- Fiberwise summation: when every element of `rep` satisfies the
group predicate of exactly one `g ∈ ivs`, summing groupwise equals
summing over `rep`. -/
theorem sum_filter_partition {α β : Type} (ivs : List α) (inGb : α → β → Bool)
    (f : β → Nat) (rep : List β)
    (hone : ∀ r ∈ rep, ivs.countP (fun g => inGb g r) = 1) :
    (ivs.map (fun g => ((rep.filter (fun r => inGb g r)).map f).sum)).sum
      = (rep.map f).sum := by
  induction rep with
  | nil => simp
  | cons r rest ih =>
    have hsplit : ∀ g, ((( r :: rest).filter (fun x => inGb g x)).map f).sum
        = (if inGb g r then f r else 0)
          + ((rest.filter (fun x => inGb g x)).map f).sum := by
      intro g
      by_cases h : inGb g r
      · rw [List.filter_cons_of_pos (by simpa using h), List.map_cons, List.sum_cons,
          if_pos h]
      · rw [List.filter_cons_of_neg (by simpa using h), if_neg h]
        omega
    calc (ivs.map (fun g => (((r :: rest).filter (fun x => inGb g x)).map f).sum)).sum
        = (ivs.map (fun g => (if inGb g r then f r else 0)
            + ((rest.filter (fun x => inGb g x)).map f).sum)).sum := by
          congr 1
          exact List.map_congr_left (fun g _ => hsplit g)
      _ = (ivs.map (fun g => if inGb g r then f r else 0)).sum
            + (ivs.map (fun g => ((rest.filter (fun x => inGb g x)).map f).sum)).sum :=
          sum_map_add _ _ _
      _ = f r * ivs.countP (fun g => inGb g r)
            + (rest.map f).sum := by
          rw [sum_map_ite, ih (fun x hx => hone x (List.mem_cons_of_mem r hx))]
      _ = (List.map f (r :: rest)).sum := by
          rw [hone r (List.mem_cons_self r rest)]
          simp only [List.map_cons, List.sum_cons]
          omega

theorem le_sum_of_mem {α : Type} [DecidableEq α] (l : List α) (f : α → Nat) (a : α)
    (h : a ∈ l) : f a ≤ (l.map f).sum := by
  induction l with
  | nil => simp at h
  | cons x rest ih =>
    simp only [List.map_cons, List.sum_cons]
    rcases List.mem_cons.mp h with rfl | hm
    · omega
    · have := ih hm
      omega

theorem two_mem_sum {α : Type} [DecidableEq α] (l : List α) (f : α → Nat) (a b : α)
    (ha : a ∈ l) (hb : b ∈ l) (hne : a ≠ b) :
    f a + f b ≤ (l.map f).sum ∧ 2 ≤ l.length := by
  induction l with
  | nil => simp at ha
  | cons x rest ih =>
    simp only [List.map_cons, List.sum_cons, List.length_cons]
    rcases List.mem_cons.mp ha with rfl | ham
    · have hbm : b ∈ rest := by
        rcases List.mem_cons.mp hb with rfl | h
        · exact absurd rfl hne
        · exact h
      have := le_sum_of_mem rest f b hbm
      have hlen : 1 ≤ rest.length := List.length_pos.mpr (List.ne_nil_of_mem hbm)
      omega
    · rcases List.mem_cons.mp hb with rfl | hbm
      · have := le_sum_of_mem rest f a ham
        have hlen : 1 ≤ rest.length := List.length_pos.mpr (List.ne_nil_of_mem ham)
        omega
      · have := (ih ham hbm).1
        have := (ih ham hbm).2
        omega

theorem renderItem_length_fst (p : Nat × Nat) :
    (natDigits p.1).length ≤ (renderItem p).length := by
  rw [renderItem]
  by_cases h : p.1 = p.2 <;> simp [h]

theorem renderItem_length_snd (p : Nat × Nat) :
    (natDigits p.2).length ≤ (renderItem p).length := by
  rw [renderItem]
  by_cases h : p.1 = p.2 <;> simp [h] <;> omega

theorem renderItem_length_range (p : Nat × Nat) (h : p.1 ≠ p.2) :
    (renderItem p).length
      = (natDigits p.1).length + 1 + (natDigits p.2).length := by
  rw [renderItem, if_neg h]
  simp
  omega

theorem renderIntervals_length (ivs : List (Nat × Nat)) :
    (renderIntervals ivs).length
      = (ivs.map (fun p => (renderItem p).length)).sum + ivs.length - 1 := by
  induction ivs with
  | nil => rfl
  | cons p rest ih =>
    cases rest with
    | nil => simp [renderIntervals]
    | cons q rest2 =>
      rw [show renderIntervals (p :: q :: rest2)
          = renderItem p ++ 44 :: renderIntervals (q :: rest2) from rfl]
      have hlen : 1 ≤ (q :: rest2).length := by simp
      simp only [List.length_append, List.length_cons, ih, List.map_cons, List.sum_cons]
      have : 1 ≤ ((q :: rest2).map (fun p => (renderItem p).length)).sum
          + (q :: rest2).length := by
        simp only [List.length_cons]
        omega
      simp only [List.map_cons, List.sum_cons, List.length_cons] at this ⊢
      omega

/-- The group of `rep` intervals lying inside one canonical interval
costs at least as much as the canonical item. -/
theorem group_cost (g : Nat × Nat) (G : List (Nat × Nat))
    (hGin : ∀ r ∈ G, g.1 ≤ r.1 ∧ r.2 ≤ g.2)
    (hr1 : ∃ r ∈ G, r.1 = g.1) (hr2 : ∃ r ∈ G, r.2 = g.2) :
    (renderItem g).length
      ≤ (G.map (fun r => (renderItem r).length)).sum + (G.length - 1) := by
  obtain ⟨r1, hr1m, hr11⟩ := hr1
  obtain ⟨r2, hr2m, hr22⟩ := hr2
  by_cases hgeq : g.1 = g.2
  · have h1 : (natDigits r1.1).length ≤ (renderItem r1).length := renderItem_length_fst r1
    have h2 : (renderItem r1).length ≤ (G.map (fun r => (renderItem r).length)).sum :=
      le_sum_of_mem G (fun r => (renderItem r).length) r1 hr1m
    have h3 : (renderItem g).length = (natDigits g.1).length := by
      rw [renderItem, if_pos hgeq]
    rw [h3, ← hr11]
    omega
  · have hglen : (renderItem g).length
        = (natDigits g.1).length + 1 + (natDigits g.2).length :=
      renderItem_length_range g hgeq
    by_cases heq : r1 = r2
    · have hr1eq : r1 = (g.1, g.2) := by
        rw [heq] at hr11 ⊢
        exact Prod.ext hr11 hr22
      have hlen1 : (renderItem r1).length = (renderItem g).length := by
        rw [hr1eq, show g = (g.1, g.2) from rfl]
      have hsum : (renderItem r1).length ≤ (G.map (fun r => (renderItem r).length)).sum :=
        le_sum_of_mem G (fun r => (renderItem r).length) r1 hr1m
      omega
    · have htwo := two_mem_sum G (fun r => (renderItem r).length) r1 r2 hr1m hr2m heq
      have hsum : (renderItem r1).length + (renderItem r2).length
          ≤ (G.map (fun r => (renderItem r).length)).sum := htwo.1
      have hlen : 2 ≤ G.length := htwo.2
      have h1 : (natDigits g.1).length ≤ (renderItem r1).length := by
        rw [← hr11]
        exact renderItem_length_fst r1
      have h2 : (natDigits g.2).length ≤ (renderItem r2).length := by
        rw [← hr22]
        exact renderItem_length_snd r2
      omega

theorem sum_sub_ones {α : Type} (l : List α) (h : α → Nat) (hone : ∀ g ∈ l, 1 ≤ h g) :
    (l.map (fun g => h g - 1)).sum = (l.map h).sum - l.length
    ∧ l.length ≤ (l.map h).sum := by
  induction l with
  | nil => simp
  | cons g rest ih =>
    obtain ⟨ih1, ih2⟩ := ih (fun x hx => hone x (List.mem_cons_of_mem g hx))
    have hg := hone g (List.mem_cons_self g rest)
    simp only [List.map_cons, List.sum_cons, List.length_cons]
    omega

/-- The canonical gap-separated intervals render at least as short as
any well-formed interval list covering the same UID set. -/
theorem renderIntervals_min (ivs rep : List (Nat × Nat))
    (hwf1 : ∀ p ∈ ivs, p.1 ≤ p.2)
    (hch : List.Chain' (fun p q => p.2 + 1 < q.1) ivs)
    (hwf2 : ∀ p ∈ rep, p.1 ≤ p.2)
    (hcov : ∀ x, (∃ p ∈ rep, p.1 ≤ x ∧ x ≤ p.2) ↔ (∃ g ∈ ivs, g.1 ≤ x ∧ x ≤ g.2)) :
    (renderIntervals ivs).length ≤ (renderIntervals rep).length := by
  have hpw := chain_sep_pairwise ivs hwf1 hch
  have hwithin := rep_within ivs rep hpw hwf2 hcov
  have hone : ∀ r ∈ rep, ivs.countP (fun g => decide (g.1 ≤ r.1 ∧ r.2 ≤ g.2)) = 1 :=
    fun r hr => countP_inG_one ivs hpw r (hwf2 r hr) (hwithin r hr)
  have hgroup : ∀ g ∈ ivs,
      (renderItem g).length
        ≤ ((rep.filter (fun r => decide (g.1 ≤ r.1 ∧ r.2 ≤ g.2))).map
            (fun r => (renderItem r).length)).sum
          + ((rep.filter (fun r => decide (g.1 ≤ r.1 ∧ r.2 ≤ g.2))).length - 1)
      ∧ 1 ≤ (rep.filter (fun r => decide (g.1 ≤ r.1 ∧ r.2 ≤ g.2))).length := by
    intro g hgm
    have hmemG : ∀ x, g.1 ≤ x → x ≤ g.2 →
        ∃ r ∈ rep.filter (fun r => decide (g.1 ≤ r.1 ∧ r.2 ≤ g.2)),
          r.1 ≤ x ∧ x ≤ r.2 := by
      intro x hx1 hx2
      obtain ⟨r, hrm, ha, hb⟩ := (hcov x).mpr ⟨g, hgm, hx1, hx2⟩
      obtain ⟨g2, hg2m, hin1, hin2⟩ := hwithin r hrm
      have hg2 : g2 = g := by
        rcases pairwise_mem_rel ivs hpw g g2 hgm hg2m with rfl | hsep | hsep
        · rfl
        · omega
        · omega
      subst hg2
      refine ⟨r, ?_, ha, hb⟩
      rw [List.mem_filter]
      exact ⟨hrm, by simp only [decide_eq_true_eq]; exact ⟨hin1, hin2⟩⟩
    obtain ⟨r1, hr1G, hr1a, hr1b⟩ := hmemG g.1 le_rfl (hwf1 g hgm)
    obtain ⟨r2, hr2G, hr2a, hr2b⟩ := hmemG g.2 (hwf1 g hgm) le_rfl
    have hG : ∀ r ∈ rep.filter (fun r => decide (g.1 ≤ r.1 ∧ r.2 ≤ g.2)),
        g.1 ≤ r.1 ∧ r.2 ≤ g.2 := by
      intro r hr
      have := (List.mem_filter.mp hr).2
      simpa using this
    have hr11 : r1.1 = g.1 := by
      have := (hG r1 hr1G).1
      omega
    have hr22 : r2.2 = g.2 := by
      have := (hG r2 hr2G).2
      omega
    exact ⟨group_cost g _ hG ⟨r1, hr1G, hr11⟩ ⟨r2, hr2G, hr22⟩,
      List.length_pos.mpr (List.ne_nil_of_mem hr1G)⟩
  have hsum1 : (ivs.map (fun g => (renderItem g).length)).sum
      ≤ (ivs.map (fun g =>
          ((rep.filter (fun r => decide (g.1 ≤ r.1 ∧ r.2 ≤ g.2))).map
            (fun r => (renderItem r).length)).sum
          + ((rep.filter (fun r => decide (g.1 ≤ r.1 ∧ r.2 ≤ g.2))).length - 1))).sum :=
    List.sum_le_sum (fun g hg => (hgroup g hg).1)
  have hsplit : (ivs.map (fun g =>
        ((rep.filter (fun r => decide (g.1 ≤ r.1 ∧ r.2 ≤ g.2))).map
          (fun r => (renderItem r).length)).sum
        + ((rep.filter (fun r => decide (g.1 ≤ r.1 ∧ r.2 ≤ g.2))).length - 1))).sum
      = (ivs.map (fun g =>
          ((rep.filter (fun r => decide (g.1 ≤ r.1 ∧ r.2 ≤ g.2))).map
            (fun r => (renderItem r).length)).sum)).sum
        + (ivs.map (fun g =>
            (rep.filter (fun r => decide (g.1 ≤ r.1 ∧ r.2 ≤ g.2))).length - 1)).sum :=
    sum_map_add _ _ _
  have hpart : (ivs.map (fun g =>
      ((rep.filter (fun r => decide (g.1 ≤ r.1 ∧ r.2 ≤ g.2))).map
        (fun r => (renderItem r).length)).sum)).sum
      = (rep.map (fun r => (renderItem r).length)).sum :=
    sum_filter_partition ivs (fun g r => decide (g.1 ≤ r.1 ∧ r.2 ≤ g.2))
      (fun r => (renderItem r).length) rep hone
  have hcount : (ivs.map (fun g =>
      (rep.filter (fun r => decide (g.1 ≤ r.1 ∧ r.2 ≤ g.2))).length)).sum
      = rep.length := by
    have h := sum_filter_partition ivs (fun g r => decide (g.1 ≤ r.1 ∧ r.2 ≤ g.2))
      (fun _ => 1) rep hone
    rw [sum_map_one] at h
    rw [← h]
    congr 1
    exact List.map_congr_left (fun g _ => (sum_map_one _).symm)
  obtain ⟨hsub, hle⟩ := sum_sub_ones ivs
    (fun g => (rep.filter (fun r => decide (g.1 ≤ r.1 ∧ r.2 ≤ g.2))).length)
    (fun g hg => (hgroup g hg).2)
  rw [renderIntervals_length, renderIntervals_length]
  omega

theorem mem_intervalsFinset (rep : List (Nat × Nat)) (x : Nat) :
    x ∈ intervalsFinset rep ↔ ∃ p ∈ rep, p.1 ≤ x ∧ x ≤ p.2 := by
  induction rep with
  | nil => simp [intervalsFinset]
  | cons p rest ih =>
    rw [show intervalsFinset (p :: rest)
        = Finset.Icc p.1 p.2 ∪ intervalsFinset rest from rfl]
    rw [Finset.mem_union, Finset.mem_Icc, ih]
    constructor
    · rintro (⟨h1, h2⟩ | ⟨q, hq, hx⟩)
      · exact ⟨p, List.mem_cons_self p rest, h1, h2⟩
      · exact ⟨q, List.mem_cons_of_mem p hq, hx⟩
    · rintro ⟨q, hq, hx⟩
      rcases List.mem_cons.mp hq with rfl | hm
      · exact Or.inl hx
      · exact Or.inr ⟨q, hm, hx⟩

/-! ## Claim C9 — UID sequence compaction -/

/-- C9: for a finite UID set given as its strictly sorted enumeration
`l`, the compacted string produced by `uids_to_sequence` parses back
(under the sequence-set grammar) to exactly the same UID set, and it
is a shortest representation: no well-formed interval list `rep`
denoting the same set renders to a shorter string. -/
theorem uids_to_sequence_spec (l : List Nat) (x : Nat) (rep : List (Nat × Nat))
    (hs : List.Chain' (· < ·) l)
    (hwf : intervalsWF rep)
    (hcov : intervalsFinset rep = l.toFinset) :
    (seqMem (uids_to_sequence l) x ↔ x ∈ l)
    ∧ (uids_to_sequence l).length ≤ (renderIntervals rep).length := by
  have hsort : l.mergeSort (fun a b => a ≤ b) = l := by
    apply List.mergeSort_eq_self
    rw [List.chain'_iff_pairwise] at hs
    exact hs.imp (fun hab => Nat.le_of_lt hab)
  obtain ⟨hwf1, hcov1, hch⟩ := runs_spec l hs
  have hu : uids_to_sequence l = renderIntervals (runs l) := by
    rw [uids_to_sequence, hsort]
  have hparse : parseSeqSet (renderIntervals (runs l)) = some (runs l) :=
    parseSeqSet_renderIntervals (runs l) hwf1
  have hcovpt : ∀ y, (∃ p ∈ rep, p.1 ≤ y ∧ y ≤ p.2)
      ↔ (∃ g ∈ runs l, g.1 ≤ y ∧ y ≤ g.2) := by
    intro y
    rw [hcov1 y, ← mem_intervalsFinset, hcov]
    simp
  constructor
  · rw [hu]
    have hmem : seqMem (renderIntervals (runs l)) x
        ↔ (∃ p ∈ runs l, p.1 ≤ x ∧ x ≤ p.2) := by
      unfold seqMem
      rw [hparse]
    rw [hmem]
    exact hcov1 x
  · rw [hu]
    exact renderIntervals_min (runs l) rep hwf1 hch hwf hcovpt

/-- C9 witness: the set `[1, 2, 3, 7]` with alternative representation
`1:3,7`; the compacted string round-trips at `x = 5 ∉` the set and is
no longer than the alternative's rendering. -/
theorem uids_to_sequence_spec_witness :
    (List.Chain' (· < ·) [1, 2, 3, 7]
      ∧ intervalsWF [(1, 3), (7, 7)]
      ∧ intervalsFinset [(1, 3), (7, 7)] = ([1, 2, 3, 7] : List Nat).toFinset)
    ∧ ((seqMem (uids_to_sequence [1, 2, 3, 7]) 5 ↔ 5 ∈ ([1, 2, 3, 7] : List Nat))
      ∧ (uids_to_sequence [1, 2, 3, 7]).length
          ≤ (renderIntervals [(1, 3), (7, 7)]).length) := by
  refine ⟨⟨by norm_num [List.chain'_cons], by decide, by decide⟩, ?_⟩
  exact uids_to_sequence_spec [1, 2, 3, 7] 5 [(1, 3), (7, 7)]
    (by norm_num [List.chain'_cons]) (by decide) (by decide)

/-! ## Claim C2 — `delete_email` cascade -/

/-- C2 counterexample: a database holding one email, one attachment row
and one category assignment for `("INBOX", 7)`; after
`delete_email("INBOX", 7)` the `email_categories` row is still present,
so the claim that no `email_categories` row for that `(folder, uid)`
remains is false. -/
theorem delete_email_keeps_category_row_example :
    (delete_email
      { emails := [{ uid := 7, folder := ("INBOX"), subject := ("hi"),
                     from_addr := ("a@b"), to_addr := ("c@d"), cc := (""),
                     date := (""), date_timestamp := 0, is_read := false,
                     has_attachments := true, body_text := none, body_html := none,
                     cached_at := 0 }],
        attachments := [{ email_uid := 7, folder := ("INBOX"), filename := ("f.pdf"),
                          mime_type := ("application/pdf"), size := 3, data := none }],
        sync_state := [],
        email_categories := [{ folder := ("INBOX"), uid := 7, category_id := ("work"),
                               confidence := 1, is_user_override := false,
                               categorized_at := 0 }] }
      ("INBOX") 7).email_categories
    = [{ folder := ("INBOX"), uid := 7, category_id := ("work"),
         confidence := 1, is_user_override := false, categorized_at := 0 }] := by
  rfl

/-- C2 (amended): `delete_email(folder, uid)` removes the `emails` row
and — via the schema's `ON DELETE CASCADE` — every `attachments` row
for that `(folder, uid)`, but leaves the `email_categories` table
completely unchanged: the category-assignment table has no foreign key
and the method issues no delete against it. -/
theorem delete_email_frame (db : CacheDb) (folder : String) (uid : Nat) :
    (∀ r ∈ (delete_email db folder uid).emails, ¬(r.folder = folder ∧ r.uid = uid)) ∧
    (∀ r ∈ (delete_email db folder uid).attachments, ¬(r.folder = folder ∧ r.email_uid = uid)) ∧
    (delete_email db folder uid).email_categories = db.email_categories := by
  refine ⟨?_, ?_, rfl⟩ <;>
    · intro r hr
      simp only [delete_email, List.mem_filter, Bool.not_eq_eq_eq_not, Bool.not_true,
        Bool.and_eq_false_imp, beq_iff_eq, beq_eq_false_iff_ne] at hr
      rintro ⟨h1, h2⟩
      exact hr.2 h1 h2

/-! ## Claim C3 — `set_sync_state` monotonicity -/

/-- C3 counterexample: writing `highest_uid = 5` and then
`highest_uid = 3` for the same folder leaves the stored value `3`,
not `max 5 3 = 5`: the claimed monotonicity fails. -/
theorem set_sync_state_not_max_example :
    (get_sync_state
        (set_sync_state (set_sync_state CacheDb.empty 0 ("INBOX") 5) 1 ("INBOX") 3)
        ("INBOX")).map SyncState.highest_uid = some 3
      ∧ (3 : Nat) ≠ max 5 3 := by
  exact ⟨rfl, by decide⟩

/-- C3 (amended): `set_sync_state` stores the given value
unconditionally (`INSERT OR REPLACE`), so after
`set_sync_state(folder, u1)` then `set_sync_state(folder, u2)`,
`get_sync_state(folder)` reports `highest_uid = u2` — the last value
written, whether or not it is the maximum.  The stored `highest_uid`
is therefore not monotonically non-decreasing. -/
theorem set_sync_state_last_write_wins (db : CacheDb) (now1 now2 : Int) (folder : String)
    (u1 u2 : Nat) :
    get_sync_state (set_sync_state (set_sync_state db now1 folder u1) now2 folder u2) folder
      = some { folder := folder, last_sync := now2, highest_uid := u2 } := by
  simp [get_sync_state, set_sync_state, List.find?]

/-! ## Claim C4 — user-override categories -/

/-- C4 counterexample: a category row written with
`is_user_override = true` (category `work`) is replaced wholesale by a
later call with `is_user_override = false` (category `spam`): the row
does not stay unchanged. -/
theorem set_email_category_overwrites_override_example :
    (set_email_category
        (set_email_category CacheDb.empty 0 ("INBOX") 1 ("work") 1 true)
        1 ("INBOX") 1 ("spam") (1/2) false).email_categories
      = [{ folder := ("INBOX"), uid := 1, category_id := ("spam"),
           confidence := 1/2, is_user_override := false, categorized_at := 1 }]
      ∧ ("spam" : String) ≠ ("work" : String) := by
  exact ⟨rfl, by decide⟩

/-- C4 (amended): `set_email_category` is an unconditional
`INSERT OR REPLACE` on the primary key `(folder, uid)`: a later call
with `is_user_override = false` replaces a previously stored
user-override row entirely.  User overrides are only protected in the
batch path because `get_uncategorized_emails` skips already-categorized
emails; the single-email automatic path overwrites them. -/
theorem set_email_category_last_write_wins (db : CacheDb) (now now' : Int) (folder : String)
    (uid : Nat) (c c' : String) (conf conf' : Rat) :
    (set_email_category (set_email_category db now folder uid c conf true)
        now' folder uid c' conf' false).email_categories.find?
        (fun r => r.folder == folder && r.uid == uid)
      = some { folder := folder, uid := uid, category_id := c', confidence := conf',
               is_user_override := false, categorized_at := now' } := by
  simp [set_email_category, List.find?]

/-! ## Claim C8 — retention cleanup -/

/-- C8: `cleanup_old_emails(0)` deletes nothing and returns `0`; for
`d > 0` a row survives iff its `cached_at` is not below
`now - d*86400`, the returned count plus the surviving count equals the
original count (so the count returned is exactly the number of rows
deleted), and the returned count is unchanged under arbitrary rewrites
of every row's `date_timestamp` — selection is by `cached_at` alone,
never by `date_timestamp`. -/
theorem cleanup_old_emails_spec (db : CacheDb) (now : Int) (d : Nat) (r : EmailRow)
    (g : EmailRow → Int) (h : 0 < d) :
    cleanup_old_emails db now 0 = (db, 0)
    ∧ (r ∈ (cleanup_old_emails db now d).1.emails
        ↔ (r ∈ db.emails ∧ ¬(r.cached_at < now - (d : Int) * 86400)))
    ∧ (cleanup_old_emails db now d).2 + (cleanup_old_emails db now d).1.emails.length
        = db.emails.length
    ∧ (cleanup_old_emails
          { db with emails := db.emails.map (fun x => { x with date_timestamp := g x }) }
          now d).2
        = (cleanup_old_emails db now d).2 := by
  have hd : d ≠ 0 := Nat.pos_iff_ne_zero.mp h
  have h86400 : (d : Int) * 24 * 60 * 60 = (d : Int) * 86400 := by ring
  refine ⟨by simp [cleanup_old_emails], ?_, ?_, ?_⟩
  · simp [cleanup_old_emails, hd, List.mem_filter, h86400]
  · simp only [cleanup_old_emails, hd, if_false]
    exact length_filter_add_length_filter_not _ _
  · simp only [cleanup_old_emails, hd, if_false]
    rw [filter_map_comm]
    simp

/-- C8 witness: a two-row database, one row cached long ago and one
recently; `cleanup_old_emails` with `d = 1` at `now = 200000`. -/
theorem cleanup_old_emails_spec_witness :
    (0 : Nat) < 1
    ∧ (cleanup_old_emails sampleDb 200000 0 = (sampleDb, 0)
        ∧ (sampleRow ∈ (cleanup_old_emails sampleDb 200000 1).1.emails
            ↔ (sampleRow ∈ sampleDb.emails
                ∧ ¬(sampleRow.cached_at < 200000 - (1 : Int) * 86400)))
        ∧ (cleanup_old_emails sampleDb 200000 1).2
              + (cleanup_old_emails sampleDb 200000 1).1.emails.length
            = sampleDb.emails.length
        ∧ (cleanup_old_emails
              { sampleDb with
                emails := sampleDb.emails.map (fun x => { x with date_timestamp := 0 }) }
              200000 1).2
            = (cleanup_old_emails sampleDb 200000 1).2) := by
  refine ⟨by decide, ?_⟩
  exact cleanup_old_emails_spec sampleDb 200000 1 sampleRow (fun _ => 0) (by decide)

/-! ## Claim C1 — fetch_headers pagination -/

/-- C1 counterexample: with `N = 237` total messages,
`fetch_headers(folder, 0, 50)` computes `end = 237`,
`begin = max(237 - 50, 1) = 187` and fetches the inclusive range
`187:237` — 51 messages, not 50: the claimed range
`[N-start-count+1 .. N-start]` and the claimed 50 returned headers are
off by one. -/
theorem fetch_headers_off_by_one_example :
    (fetch_headers (List.range 237) 0 50).length = 51 ∧ (51 : Nat) ≠ 50 :=
  ⟨by decide, by decide⟩

/-- C1 (amended): with `N` total messages (`N > 0`), writing
`e = N - start` and `b = max (e - count) 1` (saturating arithmetic),
a non-empty fetch returns the messages with sequence numbers
`[b .. e]` — an inclusive range of `e - b + 1 = count + 1` messages
when no clamping occurs — reversed so the newest appears first: the
`i`-th returned header (0-based) is the message with sequence number
`e - i`, i.e. list index `e - 1 - i`.  In particular `(start, count) =
(0, 50)` on 237 messages returns 51 headers, newest first. -/
theorem fetch_headers_spec {α : Type} (mailbox : List α) (start count i : Nat)
    (h0 : 0 < mailbox.length)
    (hb : max (mailbox.length - start - count) 1 ≤ mailbox.length - start)
    (hi : i < mailbox.length - start - max (mailbox.length - start - count) 1 + 1) :
    (fetch_headers mailbox start count).length
        = mailbox.length - start - max (mailbox.length - start - count) 1 + 1
    ∧ (fetch_headers mailbox start count)[i]? = mailbox[mailbox.length - start - 1 - i]? := by
  have hN : mailbox.length ≠ 0 := Nat.pos_iff_ne_zero.mp h0
  have hnotlt : ¬(mailbox.length - start < max (mailbox.length - start - count) 1) :=
    not_lt.mpr hb
  have hfetch : fetch_headers mailbox start count
      = ((mailbox.drop (max (mailbox.length - start - count) 1 - 1)).take
          (mailbox.length - start - max (mailbox.length - start - count) 1 + 1)).reverse := by
    simp [fetch_headers, fetch_headers_range, hN, hnotlt]
  have hb1 : 1 ≤ max (mailbox.length - start - count) 1 := le_max_right _ _
  have hlen : ((mailbox.drop (max (mailbox.length - start - count) 1 - 1)).take
      (mailbox.length - start - max (mailbox.length - start - count) 1 + 1)).length
      = mailbox.length - start - max (mailbox.length - start - count) 1 + 1 := by
    simp only [List.length_take, List.length_drop]
    omega
  constructor
  · rw [hfetch, List.length_reverse, hlen]
  · rw [hfetch, List.getElem?_reverse (by rw [List.length_take, List.length_drop]; omega),
      List.length_take, List.length_drop]
    have harg : min (mailbox.length - start - max (mailbox.length - start - count) 1 + 1)
        (mailbox.length - (max (mailbox.length - start - count) 1 - 1)) - 1 - i
        < mailbox.length - start - max (mailbox.length - start - count) 1 + 1 := by omega
    rw [List.getElem?_take_of_lt harg, List.getElem?_drop]
    congr 1
    omega

/-- C1 witness: `fetch_headers` on a 237-message mailbox with
`(start, count) = (0, 50)` returns 51 headers and its first returned
header is the message at list index 236, the newest. -/
theorem fetch_headers_spec_witness :
    (0 < (List.range 237).length
      ∧ max ((List.range 237).length - 0 - 50) 1 ≤ (List.range 237).length - 0
      ∧ 0 < (List.range 237).length - 0
          - max ((List.range 237).length - 0 - 50) 1 + 1)
    ∧ ((fetch_headers (List.range 237) 0 50).length
          = (List.range 237).length - 0 - max ((List.range 237).length - 0 - 50) 1 + 1
        ∧ (fetch_headers (List.range 237) 0 50)[0]?
          = (List.range 237)[(List.range 237).length - 0 - 1 - 0]?) := by
  refine ⟨⟨by decide, by decide, by decide⟩, ?_⟩
  exact fetch_headers_spec (List.range 237) 0 50 0 (by decide) (by decide) (by decide)

/-! ## Claim C5 — Modified UTF-7 round trip -/

/-- C5 counterexample: the round trip in the direction the claim
states it — decode, then re-encode — fails: the wire name `&AGE-` is a
non-canonical encoding of `a`; decoding yields `a`, and re-encoding
yields `a` again, not the original `&AGE-`. -/
theorem utf7_decode_encode_not_id_example :
    encode_imap_utf7 (decode_imap_utf7 (codes ("&AGE-"))) = codes ("a")
      ∧ codes ("a") ≠ codes ("&AGE-") :=
  ⟨by decide, by decide⟩

/-- C5 (amended): the round trip holds in the other direction: for
every Unicode input (scalar values, here additionally not containing
U+0000 as the claim assumes), encoding to Modified UTF-7 and then
decoding yields the original; `Entwürfe` has wire form `Entw&APw-rfe`,
which decodes back to `Entwürfe`. -/
theorem decode_encode_imap_utf7 (u : List Nat) (hv : ∀ c ∈ u, validChar c)
    (h0 : 0 ∉ u) :
    decode_imap_utf7 (encode_imap_utf7 u) = u := by
  have h := decodeUtf7Go_encodeUtf7Go u [] (encodeUtf7Go [] u).length hv
    (by simp) le_rfl
  rw [decode_imap_utf7, encode_imap_utf7]
  simpa using h

/-- C5 witness: the round trip at `Entwürfe`, with the grounding that
its wire form is exactly `Entw&APw-rfe` and that the wire form decodes
back. -/
theorem decode_encode_imap_utf7_witness :
    ((∀ c ∈ codes ("Entwürfe"), validChar c) ∧ 0 ∉ codes ("Entwürfe"))
    ∧ decode_imap_utf7 (encode_imap_utf7 (codes ("Entwürfe"))) = codes ("Entwürfe")
    ∧ encode_imap_utf7 (codes ("Entwürfe")) = codes ("Entw&APw-rfe")
    ∧ decode_imap_utf7 (codes ("Entw&APw-rfe")) = codes ("Entwürfe") := by
  refine ⟨⟨by decide, by decide⟩, ?_, by decide, by decide⟩
  exact decode_encode_imap_utf7 (codes ("Entwürfe")) (by decide) (by decide)

/-! ## Claim C6 — RFC 2047 whitespace between encoded words -/

/-- C6 counterexample: with TWO spaces between the encoded words, only
the space directly before the next word's `=` is elided; the first
space is emitted, so the result is `foo bar`, not `foobar`: whitespace
elision does not hold for every whitespace separator of one or more
characters. -/
theorem decode_rfc2047_two_spaces_example :
    decode_rfc2047 (codes ("=?UTF-8?Q?foo?=  =?UTF-8?Q?bar?=")) = codes ("foo bar")
      ∧ codes ("foo bar") ≠ codes ("foobar") :=
  ⟨by decide, by decide⟩

/-- C6 (amended): two consecutive encoded words separated by exactly
one whitespace character (space or tab) decode to their decoded texts
concatenated with the separator elided — here proved for `UTF-8`/`Q`
words whose texts pass through transfer decoding unchanged; with
longer whitespace runs only the final character before the next word
is elided (see the two-space counterexample).  In particular
`=?UTF-8?Q?foo?= =?UTF-8?Q?bar?=` decodes to `foobar`. -/
theorem decode_rfc2047_single_ws (t1 t2 : List Nat) (c : Nat)
    (h1 : qSafe t1) (h2 : qSafe t2) (hc : c = 32 ∨ c = 9) :
    decode_rfc2047 (qWord t1 ++ c :: qWord t2) = t1 ++ t2 := by
  have hpos : 0 < (qWord t1 ++ c :: qWord t2).length := by simp [qWord]
  rw [decode_rfc2047,
    show (qWord t1 ++ c :: qWord t2).length
      = ((qWord t1 ++ c :: qWord t2).length - 1) + 1 from by omega,
    rfc2047Go_qWord _ t1 _ h1]
  have hws : wsSkip (c :: qWord t2) = ([], qWord t2) := by
    rcases hc with h | h <;> subst h <;> simp [wsSkip, qWord]
  rw [hws]
  have hpos2 : 0 < (qWord t1 ++ c :: qWord t2).length - 1 := by simp [qWord]
  rw [show (qWord t1 ++ c :: qWord t2).length - 1
      = ((qWord t1 ++ c :: qWord t2).length - 1 - 1) + 1 from by omega,
    show (qWord t2 : List Nat) = qWord t2 ++ [] from (List.append_nil _).symm,
    rfc2047Go_qWord _ t2 [] h2]
  simp [wsSkip, rfc2047Go_nil]

/-- C6 witness: the amended statement at `foo`, `bar` with a single
space, together with the grounding that these lists are exactly the
code points of `=?UTF-8?Q?foo?= =?UTF-8?Q?bar?=` and `foobar`. -/
theorem decode_rfc2047_single_ws_witness :
    (qSafe (codes ("foo")) ∧ qSafe (codes ("bar")) ∧ ((32 : Nat) = 32 ∨ (32 : Nat) = 9))
    ∧ decode_rfc2047 (qWord (codes ("foo")) ++ 32 :: qWord (codes ("bar")))
        = codes ("foo") ++ codes ("bar")
    ∧ qWord (codes ("foo")) ++ 32 :: qWord (codes ("bar"))
        = codes ("=?UTF-8?Q?foo?= =?UTF-8?Q?bar?=")
    ∧ codes ("foo") ++ codes ("bar") = codes ("foobar") := by
  refine ⟨⟨by decide, by decide, Or.inl rfl⟩, ?_, by decide, by decide⟩
  exact decode_rfc2047_single_ws (codes ("foo")) (codes ("bar")) 32
    (by decide) (by decide) (Or.inl rfl)

/-! ## Claim C10 — cache flag handling -/

/-- C10: `get_email` builds every returned `Email` with
`is_read = true`, `is_flagged = false`, `is_answered = false`,
`is_draft = false` and an empty `flags` list, regardless of the stored
row (the binders range over arbitrary databases); and `store_email`
writes the `emails` row with `is_read = 0`, discarding the `is_read`
value of the email being stored (the freshly written row is the head of
the modelled table). -/
theorem get_email_fixed_flags_and_store_discards_is_read
    (db : CacheDb) (folder : String) (uid : Nat) (e : Email) (now ts : Int) (email : Email)
    (h : get_email db folder uid = some e) :
    (e.is_read = true ∧ e.is_flagged = false ∧ e.is_answered = false ∧ e.is_draft = false
        ∧ e.flags = [])
    ∧ ((store_email db now ts folder email).emails.head?).map EmailRow.is_read
        = some false := by
  constructor
  · rw [get_email, Option.map_eq_some'] at h
    obtain ⟨r, _, he⟩ := h
    subst he
    exact ⟨rfl, rfl, rfl, rfl, rfl⟩
  · simp [store_email, foldl_store_attachment_metadata_emails]

/-- C10 witness: the sample database stores its only row with
`is_read = 0`, yet `get_email` reports it read with no flags; storing
an email marked read writes `is_read = 0`. -/
theorem get_email_fixed_flags_witness :
    get_email sampleDb ("INBOX") 1 = some sampleEmailOut
    ∧ ((sampleEmailOut.is_read = true ∧ sampleEmailOut.is_flagged = false
          ∧ sampleEmailOut.is_answered = false ∧ sampleEmailOut.is_draft = false
          ∧ sampleEmailOut.flags = [])
        ∧ ((store_email sampleDb 5 6 ("INBOX") sampleEmailIn).emails.head?).map
            EmailRow.is_read = some false) := by
  refine ⟨by decide, ?_⟩
  exact get_email_fixed_flags_and_store_discards_is_read sampleDb ("INBOX") 1
    sampleEmailOut 5 6 sampleEmailIn (by decide)

end MailClient
